import Mathlib

/-!
Verification development for the comics_viewer repository, centred on the
viewport transform (`src/comics_viewer/view.py`) and the tile annotation
state machine (`src/comics_viewer/tiles.py`).

Embedding conventions:
* numpy float arrays of length 2 are embedded as pairs of rationals
  (`Vec`); float arithmetic is modelled exactly over `ℚ` ("up to
  floating-point tolerance" in the specification becomes exact equality).
* The 4x4 homogeneous matrices built by `View.affine` act on vectors of the
  shape `(x, y, 0, 1)`; their z row and z column are `(0, 0, 1, 0)`
  (rotation about the z axis, zero z translation), so the action on the
  `(x, y)` components factors through a 2x2 linear part plus a translation.
  `Affine2` embeds exactly that block.  The code multiplies row vectors by
  the transposed matrix (`affine_compose(...).T`), which is the same as
  applying the untransposed composed matrix to a column vector.
* `axangle2mat([0, 0, 1], angle)` with `angle ∈ {0, π/2}` has cosine/sine
  entries `{1, 0}` resp. `{0, 1}`, hence a rational 2x2 block.
-/

namespace ComicsViewer

/-- Two-component vector (the embedding of a length-2 numpy array).
Component order follows the source array, e.g. `img_shape = (h, w)`. -/
abbrev Vec : Type := ℚ × ℚ

/-- Embedding of `np.flip` on a length-2 array. -/
def vflip (p : Vec) : Vec := (p.2, p.1)

/-- Componentwise `np.clip(x, lo, hi) = np.minimum(np.maximum(x, lo), hi)`
on one scalar. -/
def clip1 (x lo hi : ℚ) : ℚ := min (max x lo) hi

/-- 2x2 matrix `[[a, b], [c, d]]` over `ℚ`. -/
structure Mat2 where
  a : ℚ
  b : ℚ
  c : ℚ
  d : ℚ
  deriving DecidableEq

/-- Matrix times column vector. -/
def Mat2.mulVec (m : Mat2) (p : Vec) : Vec :=
  (m.a * p.1 + m.b * p.2, m.c * p.1 + m.d * p.2)

/-- Row vector times matrix, the embedding of `np.dot(p, m)` for a
row vector `p` (only the x/y block matters, see the header comment). -/
def Mat2.vecMul (p : Vec) (m : Mat2) : Vec :=
  (p.1 * m.a + p.2 * m.c, p.1 * m.b + p.2 * m.d)

def Mat2.det (m : Mat2) : ℚ := m.a * m.d - m.b * m.c

/-- Exact 2x2 matrix inverse (embedding of `np.linalg.inv` restricted to
the x/y block of the invertible 4x4 affine matrices the code builds). -/
def Mat2.inv (m : Mat2) : Mat2 :=
  ⟨m.d / m.det, -m.b / m.det, -m.c / m.det, m.a / m.det⟩

/-- Affine map `p ↦ lin p + tr`: the x/y action of the 4x4 homogeneous
matrices produced by `View.affine` on `(x, y, 0, 1)` vectors. -/
structure Affine2 where
  lin : Mat2
  tr : Vec
  deriving DecidableEq

def Affine2.apply (A : Affine2) (p : Vec) : Vec :=
  (A.lin.a * p.1 + A.lin.b * p.2 + A.tr.1, A.lin.c * p.1 + A.lin.d * p.2 + A.tr.2)

/-- Inverse affine map, the x/y block of `np.linalg.inv(affine)`. -/
def Affine2.inv (A : Affine2) : Affine2 :=
  ⟨A.lin.inv, (-(A.lin.inv.a * A.tr.1 + A.lin.inv.b * A.tr.2),
              -(A.lin.inv.c * A.tr.1 + A.lin.inv.d * A.tr.2))⟩

/-! ## The viewport transform (`View`, view.py)

`ViewK` is the view state once an image and a viewport are known; the
`Option`-typed wrapper `ViewOpt` below models the not-yet-ready states. -/

structure ViewK where
  img_shape : Vec   -- `(height, width)` of the decoded page image
  viewport : Vec    -- `(height, width)` of the GL drawing area
  scale : ℚ         -- user zoom, clamped to [1, 4] by the setter
  position : Vec    -- pan offset in image pixels around the image centre
  deriving DecidableEq

/-- Tie-aware embedding of the aspect comparison in `View.angle`
(view.py:311-320).  The Python code builds the dict
`{ |i0/i1 - va| : 0, |i1/i0 - va| : π/2 }` and indexes it with the minimum
key; on an exact key tie the second insertion overwrites the first, so the
result is π/2.  Hence the rotated branch is taken unless the first key is
strictly smaller. -/
def rotB (img vp : Vec) : Bool :=
  !(decide (|img.1 / img.2 - vp.1 / vp.2| < |img.2 / img.1 - vp.1 / vp.2|))

/-- x/y block of `axangle2mat([0, 0, 1], angle)` for the two possible
angles 0 and π/2 (`View.m_rotation`). -/
def m_rotation (v : ViewK) : Mat2 :=
  if rotB v.img_shape v.viewport then ⟨0, -1, 1, 0⟩ else ⟨1, 0, 0, 1⟩

/-- `View.keep_aspect` (view.py:351-358) for a known image shape:
rotate the viewport extent, divide by the image shape, normalise by the
maximum component. -/
def keep_aspect (v : ViewK) : Vec :=
  let vpr := Mat2.vecMul v.viewport (m_rotation v)
  let vpr : Vec := (|vpr.1|, |vpr.2|)
  let rv : Vec := (vpr.1 / v.img_shape.1, vpr.2 / v.img_shape.2)
  let m := max rv.1 rv.2
  (rv.1 / m, rv.2 / m)

/-- `View.m_zoom`: keep-aspect factor times the user scale. -/
def m_zoom (v : ViewK) : Vec :=
  ((keep_aspect v).1 * v.scale, (keep_aspect v).2 * v.scale)

/-- `View.m_translate` (view.py:331-349), line by line:
negate, scale by zoom, normalise by `img_shape / flip(keep_aspect)`,
scale to NDC, invert y, rotate (row vector times `m_rotation`), flip. -/
def m_translate (v : ViewK) : Vec :=
  let p : Vec := (-v.position.1, -v.position.2)
  let p : Vec := (p.1 * v.scale, p.2 * v.scale)
  let ka := keep_aspect v
  let p : Vec := (p.1 / (v.img_shape.1 / (vflip ka).1), p.2 / (v.img_shape.2 / (vflip ka).2))
  let p : Vec := (p.1 * 2, p.2 * 2)
  let p : Vec := (-p.1, p.2)
  let p := Mat2.vecMul p (m_rotation v)
  vflip p

/-- `View.affine(translate)` (view.py:429-434): the x/y block of
`affine_compose(Z=m_zoom+1, T=translate+0, R=m_rotation)` is
`R · diag(m_zoom)` with translation `translate`. -/
def view_affine (v : ViewK) (translate : Vec) : Affine2 :=
  let r := m_rotation v
  let z := m_zoom v
  ⟨⟨r.a * z.1, r.b * z.2, r.c * z.1, r.d * z.2⟩, translate⟩

/-- First half of `View._transform_position` (view.py:375):
`flip((pos - src/2) / src * 2 * [-1, 1])`, producing the NDC input. -/
def pre_ndc (src pos : Vec) : Vec :=
  vflip (-((pos.1 - src.1 / 2) / src.1 * 2), (pos.2 - src.2 / 2) / src.2 * 2)

/-- Second half of `View._transform_position` (view.py:377-378):
`flip((ndc - [-1, 1]) / 2 * [1, -1] * flip(dst))`. -/
def post_ndc (dst ndc : Vec) : Vec :=
  vflip ((ndc.1 - (-1)) / 2 * (vflip dst).1, -((ndc.2 - 1) / 2) * (vflip dst).2)

/-- `View._transform_position` (view.py:366-378) with an explicit affine. -/
def transform_position (v : ViewK) (pos : Vec) (inverse : Bool) (A : Affine2) : Vec :=
  let A := if inverse then A.inv else A
  let src := if inverse then v.viewport else v.img_shape
  let dst := if inverse then v.img_shape else v.viewport
  post_ndc dst (A.apply (pre_ndc src pos))

/-- `View.widget_to_img(pos, affine)` with an explicit affine. -/
def widget_to_img_A (v : ViewK) (pos : Vec) (A : Affine2) : Vec :=
  transform_position v pos true A

/-- `View.img_to_widget(pos, affine)` with an explicit affine. -/
def img_to_widget_A (v : ViewK) (pos : Vec) (A : Affine2) : Vec :=
  transform_position v pos false A

/-- `View.widget_to_img(pos)` with the default affine `View.affine()`. -/
def widget_to_img (v : ViewK) (pos : Vec) : Vec :=
  widget_to_img_A v pos (view_affine v (m_translate v))

/-- `View.img_to_widget(pos)` with the default affine `View.affine()`. -/
def img_to_widget (v : ViewK) (pos : Vec) : Vec :=
  img_to_widget_A v pos (view_affine v (m_translate v))

/-- The visible-window extent computed inside the `position` setter
(view.py:295-300): inverse-transform the viewport corner and the origin
under the zero-translation affine, take componentwise absolute values,
multiply by the flipped keep-aspect factor. -/
def visible_extent (v : ViewK) : Vec :=
  let A := view_affine v ((0 : ℚ), (0 : ℚ))
  let c1 := widget_to_img_A v v.viewport A
  let c0 := widget_to_img_A v ((0 : ℚ), (0 : ℚ)) A
  let d : Vec := (|c1.1 - c0.1|, |c1.2 - c0.2|)
  let fka := vflip (keep_aspect v)
  (d.1 * fka.1, d.2 * fka.2)

/-- The `position` setter (view.py:292-309) for a ready view: clamp the
requested pan so the visible window stays centred inside the image. -/
def set_position (v : ViewK) (position : Vec) : ViewK :=
  let vp := visible_extent v
  let shape := v.img_shape
  { v with position :=
      (clip1 position.1 (vp.1 / 2 - shape.1 / 2) (shape.1 - vp.1 / 2 - shape.1 / 2),
       clip1 position.2 (vp.2 / 2 - shape.2 / 2) (shape.2 - vp.2 / 2 - shape.2 / 2)) }

/-- The `scale` setter (view.py:283-286): clamp to [1, 4].  It only queues
a render; in particular it does not notify the tile layer. -/
def set_scale (v : ViewK) (scale : ℚ) : ViewK :=
  { v with scale := clip1 scale 1 4 }

/-! ## Not-yet-ready view states (C5)

`View._img_shape` and `View._viewport` start as `None`.  Every transform
query (`widget_to_img`, `img_to_widget`, `affine`) evaluates arithmetic on
both of them (`angle` unpacks the viewport, `m_translate` divides by the
image shape, `_transform_position` subtracts `src / 2`), so with either
missing the Python code raises a `TypeError` before any number is
produced.  The embedding models that hard failure as `none`. -/

structure ViewOpt where
  img_shape : Option Vec
  viewport : Option Vec
  scale : ℚ
  position : Vec
  deriving DecidableEq

/-- The fully-known view state, when both extents have been set. -/
def ViewOpt.ready (v : ViewOpt) : Option ViewK :=
  match v.img_shape, v.viewport with
  | some i, some vp => some ⟨i, vp, v.scale, v.position⟩
  | _, _ => none

/-- `View.widget_to_img` on a possibly not-ready view. -/
def widget_to_img? (v : ViewOpt) (pos : Vec) : Option Vec :=
  (v.ready).map (fun k => widget_to_img k pos)

/-- `View.img_to_widget` on a possibly not-ready view. -/
def img_to_widget? (v : ViewOpt) (pos : Vec) : Option Vec :=
  (v.ready).map (fun k => img_to_widget k pos)

/-- `View.affine()` on a possibly not-ready view. -/
def view_affine? (v : ViewOpt) : Option Affine2 :=
  (v.ready).map (fun k => view_affine k (m_translate k))

/-! ## The rotation angle as a Python dict lookup (C3)

`View.angle` (view.py:311-320) builds a dict keyed by the two aspect
differences and indexes it with the minimum key.  `dictInsert` embeds the
dict insertion (overwriting an existing equal key), `viewAngle` the
`aspects[min(aspects.keys())]` lookup.  The value type is `ℝ` because one
of the stored values is π/2. -/

def dictInsert (l : List (ℚ × ℝ)) (k : ℚ) (x : ℝ) : List (ℚ × ℝ) :=
  if l.any (fun kv => kv.1 == k) then
    l.map (fun kv => if kv.1 == k then (k, x) else kv)
  else
    l ++ [(k, x)]

noncomputable def viewAngleDict (img vp : Vec) : List (ℚ × ℝ) :=
  let va := vp.1 / vp.2
  dictInsert (dictInsert [] |img.1 / img.2 - va| 0) |img.2 / img.1 - va| (Real.pi / 2)

noncomputable def viewAngle (img vp : Vec) : ℝ :=
  let d := viewAngleDict img vp
  let m := (d.map Prod.fst).min?.getD 0
  ((d.find? (fun kv => kv.1 == m)).map Prod.snd).getD 0

/-- Closed form of the dict lookup: the angle is 0 exactly when the
unflipped aspect difference is strictly smaller; ties give π/2 because the
second dict insertion overwrites the first. -/
theorem viewAngle_eq (img vp : Vec) :
    viewAngle img vp =
      if |img.1 / img.2 - vp.1 / vp.2| < |img.2 / img.1 - vp.1 / vp.2| then 0
      else Real.pi / 2 := by
  unfold viewAngle viewAngleDict dictInsert
  by_cases h : |img.1 / img.2 - vp.1 / vp.2| = |img.2 / img.1 - vp.1 / vp.2|
  · simp [h, List.min?]
  · rcases lt_trichotomy (|img.1 / img.2 - vp.1 / vp.2|) (|img.2 / img.1 - vp.1 / vp.2|)
      with hlt | heq | hgt
    · simp [h, List.min?, min_eq_left hlt.le, hlt]
    · exact absurd heq h
    · simp [h, List.min?, min_eq_right hgt.le, not_lt.mpr hgt.le, Ne.symm h]

/-- The executable rotation test agrees with the dict-based angle. -/
theorem rotB_viewAngle (img vp : Vec) :
    viewAngle img vp = if rotB img vp then Real.pi / 2 else 0 := by
  rw [viewAngle_eq, rotB]
  by_cases h : |img.1 / img.2 - vp.1 / vp.2| < |img.2 / img.1 - vp.1 / vp.2| <;> simp [h]

/-! ## Round-trip lemmas for the coordinate conversion (C1) -/

theorem post_pre_ndc (dst p : Vec) (h1 : dst.1 ≠ 0) (h2 : dst.2 ≠ 0) :
    post_ndc dst (pre_ndc dst p) = p := by
  unfold post_ndc pre_ndc vflip
  apply Prod.ext <;> (simp only []; field_simp; ring)

theorem pre_post_ndc (dst q : Vec) (h1 : dst.1 ≠ 0) (h2 : dst.2 ≠ 0) :
    pre_ndc dst (post_ndc dst q) = q := by
  unfold post_ndc pre_ndc vflip
  apply Prod.ext <;> (simp only []; field_simp; ring)

theorem Affine2.apply_inv_apply (A : Affine2) (q : Vec) (h : A.lin.det ≠ 0) :
    A.apply (A.inv.apply q) = q := by
  obtain ⟨⟨a, b, c, d⟩, ⟨tx, ty⟩⟩ := A
  simp only [Mat2.det] at h
  unfold Affine2.apply Affine2.inv Mat2.inv Mat2.det
  apply Prod.ext <;> (simp only []; field_simp; ring)

theorem Affine2.inv_apply_apply (A : Affine2) (p : Vec) (h : A.lin.det ≠ 0) :
    A.inv.apply (A.apply p) = p := by
  obtain ⟨⟨a, b, c, d⟩, ⟨tx, ty⟩⟩ := A
  simp only [Mat2.det] at h
  unfold Affine2.apply Affine2.inv Mat2.inv Mat2.det
  apply Prod.ext <;> (simp only []; field_simp; ring)

/-- Both components of `keep_aspect` are positive for positive extents. -/
theorem keep_aspect_pos (v : ViewK)
    (hi1 : 0 < v.img_shape.1) (hi2 : 0 < v.img_shape.2)
    (hv1 : 0 < v.viewport.1) (hv2 : 0 < v.viewport.2) :
    0 < (keep_aspect v).1 ∧ 0 < (keep_aspect v).2 := by
  unfold keep_aspect m_rotation
  cases hrot : rotB v.img_shape v.viewport <;>
    simp only [Bool.false_eq_true, eq_self_iff_true, if_true, if_false, Mat2.vecMul, mul_zero, mul_one, mul_neg, zero_add, add_zero,
      abs_neg] <;>
    constructor <;>
    · apply div_pos
      · apply div_pos
        · rw [abs_pos]
          positivity
        · assumption
      · apply lt_max_iff.mpr
        constructor
        apply div_pos
        · rw [abs_pos]
          positivity
        · assumption

/-- The determinant of the composed affine is `scale² · ka₁ · ka₂ ≠ 0`. -/
theorem view_affine_det (v : ViewK) (t : Vec)
    (hi1 : 0 < v.img_shape.1) (hi2 : 0 < v.img_shape.2)
    (hv1 : 0 < v.viewport.1) (hv2 : 0 < v.viewport.2)
    (hs : 0 < v.scale) :
    (view_affine v t).lin.det ≠ 0 := by
  obtain ⟨hk1, hk2⟩ := keep_aspect_pos v hi1 hi2 hv1 hv2
  unfold view_affine m_zoom m_rotation
  cases hrot : rotB v.img_shape v.viewport <;>
    simp only [Bool.false_eq_true, eq_self_iff_true, if_true, if_false, Mat2.det] <;>
    · intro hzero
      nlinarith [mul_pos (mul_pos hk1 hs) (mul_pos hk2 hs)]

/-- C1 core: converting a widget point to image space and back with the
current affine is the identity (exactly, over `ℚ`). -/
theorem widget_roundtrip (v : ViewK)
    (hi1 : 0 < v.img_shape.1) (hi2 : 0 < v.img_shape.2)
    (hv1 : 0 < v.viewport.1) (hv2 : 0 < v.viewport.2)
    (hs : 0 < v.scale) (p : Vec) :
    img_to_widget v (widget_to_img v p) = p := by
  have hdet := view_affine_det v (m_translate v) hi1 hi2 hv1 hv2 hs
  unfold img_to_widget widget_to_img img_to_widget_A widget_to_img_A transform_position
  simp only [Bool.false_eq_true, eq_self_iff_true, if_true, if_false]
  rw [pre_post_ndc _ _ (ne_of_gt hi1) (ne_of_gt hi2),
     Affine2.apply_inv_apply _ _ hdet,
     post_pre_ndc _ _ (ne_of_gt hv1) (ne_of_gt hv2)]

end ComicsViewer

namespace ComicsViewer

/-- C1: for every point strictly inside the viewport and every valid
combination of scale in [1, 4], position, and the induced rotation,
applying `widget_to_img` and then `img_to_widget` returns the point
(exactly, in the rational model of the float computation). -/
theorem C1_widget_roundtrip (v : ViewK)
    (hi1 : 0 < v.img_shape.1) (hi2 : 0 < v.img_shape.2)
    (hv1 : 0 < v.viewport.1) (hv2 : 0 < v.viewport.2)
    (hs1 : 1 ≤ v.scale) (hs4 : v.scale ≤ 4) (p : Vec)
    (hp1 : 0 < p.1) (hp2 : p.1 < v.viewport.1)
    (hp3 : 0 < p.2) (hp4 : p.2 < v.viewport.2) :
    img_to_widget v (widget_to_img v p) = p :=
  widget_roundtrip v hi1 hi2 hv1 hv2 (lt_of_lt_of_le one_pos hs1) p

theorem C1_widget_roundtrip_witness :
    img_to_widget ⟨(100, 200), (50, 100), 2, (3, 4)⟩
        (widget_to_img ⟨(100, 200), (50, 100), 2, (3, 4)⟩ (10, 20)) = (10, 20) :=
  C1_widget_roundtrip ⟨(100, 200), (50, 100), 2, (3, 4)⟩ (by decide) (by decide)
    (by decide) (by decide) (by decide) (by decide) (10, 20)
    (by decide) (by decide) (by decide) (by decide)

/-- C3 (amended): the rotation angle is 0 when the unflipped aspect
difference is strictly smaller than the flipped one and π/2 otherwise; in
particular an exact tie yields π/2, because the Python dict keyed by the
two differences collapses to the π/2 entry. -/
theorem C3_rotation_angle (img vp : Vec) :
    (|img.1 / img.2 - vp.1 / vp.2| < |img.2 / img.1 - vp.1 / vp.2| →
      viewAngle img vp = 0) ∧
    (|img.2 / img.1 - vp.1 / vp.2| ≤ |img.1 / img.2 - vp.1 / vp.2| →
      viewAngle img vp = Real.pi / 2) := by
  constructor
  · intro h
    rw [viewAngle_eq, if_pos h]
  · intro h
    rw [viewAngle_eq, if_neg (not_lt.mpr h)]

theorem C3_rotation_angle_witness :
    viewAngle (100, 200) (50, 100) = 0 ∧
    viewAngle (100, 200) (100, 50) = Real.pi / 2 :=
  ⟨(C3_rotation_angle (100, 200) (50, 100)).1 (by norm_num),
   (C3_rotation_angle (100, 200) (100, 50)).2 (by norm_num)⟩

/-- C3 counterexample to the claimed tie-break: for the square image
`(100, 100)` and viewport `(50, 100)` the two aspect differences are both
`1/2` (an exact tie), yet the angle is π/2, not the claimed 0. -/
theorem C3_tiebreak_cex :
    |(100 : ℚ) / 100 - 50 / 100| = |(100 : ℚ) / 100 - 50 / 100| ∧
    viewAngle (100, 100) (50, 100) = Real.pi / 2 ∧
    viewAngle (100, 100) (50, 100) ≠ 0 := by
  refine ⟨rfl, ?_, ?_⟩
  · rw [viewAngle_eq, if_neg (lt_irrefl _)]
  · rw [viewAngle_eq, if_neg (lt_irrefl _)]
    exact div_ne_zero Real.pi_ne_zero two_ne_zero

/-- C5: before an image shape or a viewport size is known, every
transform query is refused (the embedding returns `none`, modelling the
`TypeError` the arithmetic on `None` raises) instead of producing any
coordinate value. -/
theorem C5_not_ready (v : ViewOpt) (pos : Vec)
    (h : v.img_shape = none ∨ v.viewport = none) :
    widget_to_img? v pos = none ∧ img_to_widget? v pos = none ∧
    view_affine? v = none := by
  have hready : v.ready = none := by
    unfold ViewOpt.ready
    rcases h with h | h <;> rw [h] <;> cases hv : v.viewport <;> cases hi : v.img_shape <;> rfl
  simp [widget_to_img?, img_to_widget?, view_affine?, hready]

theorem C5_not_ready_witness :
    ((⟨none, some (100, 100), 1, (0, 0)⟩ : ViewOpt).img_shape = none ∨
      (⟨none, some (100, 100), 1, (0, 0)⟩ : ViewOpt).viewport = none) ∧
    widget_to_img? ⟨none, some (100, 100), 1, (0, 0)⟩ (5, 5) = none ∧
    img_to_widget? ⟨none, some (100, 100), 1, (0, 0)⟩ (5, 5) = none ∧
    view_affine? ⟨none, some (100, 100), 1, (0, 0)⟩ = none :=
  ⟨Or.inl rfl, C5_not_ready ⟨none, some (100, 100), 1, (0, 0)⟩ (5, 5) (Or.inl rfl)⟩

end ComicsViewer

namespace ComicsViewer

theorem clip1_bounds (x lo hi : ℚ) (h : lo ≤ hi) :
    lo ≤ clip1 x lo hi ∧ clip1 x lo hi ≤ hi :=
  ⟨le_min (le_max_right x lo) h, min_le_right _ _⟩

set_option maxHeartbeats 1000000 in
/-- The visible-window extent computed by the `position` setter equals
`img_shape / scale` in both components, whichever rotation is active: the
multiplication by the flipped keep-aspect factor exactly cancels the
keep-aspect factor inside the zoom. -/
theorem visible_extent_eq (v : ViewK)
    (hi1 : 0 < v.img_shape.1) (hi2 : 0 < v.img_shape.2)
    (hv1 : 0 < v.viewport.1) (hv2 : 0 < v.viewport.2)
    (hs : 0 < v.scale) :
    visible_extent v = (v.img_shape.1 / v.scale, v.img_shape.2 / v.scale) := by
  obtain ⟨hk1, hk2⟩ := keep_aspect_pos v hi1 hi2 hv1 hv2
  set k := keep_aspect v with hk_def
  unfold visible_extent widget_to_img_A transform_position view_affine m_zoom
  rw [← hk_def]
  unfold m_rotation
  cases hrot : rotB v.img_shape v.viewport <;>
    simp only [Bool.false_eq_true, eq_self_iff_true, if_true, if_false] <;>
    unfold post_ndc pre_ndc vflip Affine2.apply Affine2.inv Mat2.inv Mat2.det <;>
    apply Prod.ext <;> simp only []
  · ring_nf
    rw [abs_of_pos ?hpos1]
    case hpos1 => positivity
    field_simp
    ring
  · ring_nf
    rw [abs_of_pos ?hpos2]
    case hpos2 => positivity
    field_simp
    ring
  · ring_nf
    rw [abs_of_pos ?hpos3]
    case hpos3 => positivity
    field_simp
    ring
  · ring_nf
    rw [abs_of_neg ?hneg4]
    case hneg4 =>
      rw [neg_lt_zero]
      positivity
    field_simp
    ring

/-- C4 (amended): the `position` setter clamps the requested pan
componentwise to `± (half(image) - half(image / scale))`, where
`image / scale` is the visible-window extent the setter computes (the
inverse-transformed viewport corners multiplied by the flipped keep-aspect
factor); consequently the keep-aspect-corrected visible window, centred at
image centre plus the stored position, stays inside `[0, image]` in both
components.  (The raw inverse-transformed corner window can exceed the
image bounds in a letterboxed dimension, see the counterexample.) -/
theorem C4_position_clamping (v : ViewK) (p : Vec)
    (hi1 : 0 < v.img_shape.1) (hi2 : 0 < v.img_shape.2)
    (hv1 : 0 < v.viewport.1) (hv2 : 0 < v.viewport.2)
    (hs1 : 1 ≤ v.scale) :
    (set_position v p).position =
      (clip1 p.1 (v.img_shape.1 / (2 * v.scale) - v.img_shape.1 / 2)
        (v.img_shape.1 / 2 - v.img_shape.1 / (2 * v.scale)),
       clip1 p.2 (v.img_shape.2 / (2 * v.scale) - v.img_shape.2 / 2)
        (v.img_shape.2 / 2 - v.img_shape.2 / (2 * v.scale))) ∧
    0 ≤ v.img_shape.1 / 2 + (set_position v p).position.1 - v.img_shape.1 / (2 * v.scale) ∧
    v.img_shape.1 / 2 + (set_position v p).position.1 + v.img_shape.1 / (2 * v.scale) ≤
      v.img_shape.1 ∧
    0 ≤ v.img_shape.2 / 2 + (set_position v p).position.2 - v.img_shape.2 / (2 * v.scale) ∧
    v.img_shape.2 / 2 + (set_position v p).position.2 + v.img_shape.2 / (2 * v.scale) ≤
      v.img_shape.2 := by
  have hs : 0 < v.scale := lt_of_lt_of_le one_pos hs1
  have hve := visible_extent_eq v hi1 hi2 hv1 hv2 hs
  have hsp : (set_position v p).position =
      (clip1 p.1 (v.img_shape.1 / v.scale / 2 - v.img_shape.1 / 2)
        (v.img_shape.1 - v.img_shape.1 / v.scale / 2 - v.img_shape.1 / 2),
       clip1 p.2 (v.img_shape.2 / v.scale / 2 - v.img_shape.2 / 2)
        (v.img_shape.2 - v.img_shape.2 / v.scale / 2 - v.img_shape.2 / 2)) := by
    unfold set_position
    rw [hve]
  have hd1 : v.img_shape.1 / v.scale / 2 = v.img_shape.1 / (2 * v.scale) := by ring
  have hd2 : v.img_shape.2 / v.scale / 2 = v.img_shape.2 / (2 * v.scale) := by ring
  have hle1 : v.img_shape.1 / v.scale ≤ v.img_shape.1 := div_le_self hi1.le hs1
  have hle2 : v.img_shape.2 / v.scale ≤ v.img_shape.2 := div_le_self hi2.le hs1
  have hb1 := clip1_bounds p.1 (v.img_shape.1 / v.scale / 2 - v.img_shape.1 / 2)
    (v.img_shape.1 - v.img_shape.1 / v.scale / 2 - v.img_shape.1 / 2) (by linarith)
  have hb2 := clip1_bounds p.2 (v.img_shape.2 / v.scale / 2 - v.img_shape.2 / 2)
    (v.img_shape.2 - v.img_shape.2 / v.scale / 2 - v.img_shape.2 / 2) (by linarith)
  rw [hsp]
  refine ⟨?_, ?_, ?_, ?_, ?_⟩
  · rw [Prod.mk.injEq]
    constructor <;> · congr 1 <;> ring
  · simp only []
    linarith [hb1.1]
  · simp only []
    linarith [hb1.2]
  · simp only []
    linarith [hb2.1]
  · simp only []
    linarith [hb2.2]

theorem C4_position_clamping_witness :
    (set_position ⟨(1000, 1000), (100, 100), 1, (0, 0)⟩ (10000, 10000)).position = (0, 0) := by
  have h := C4_position_clamping ⟨(1000, 1000), (100, 100), 1, (0, 0)⟩ (10000, 10000)
    (by norm_num) (by norm_num) (by norm_num) (by norm_num) (by norm_num)
  rw [h.1]
  norm_num [clip1, min_def, max_def]

set_option maxHeartbeats 3000000 in
/-- C4 counterexample to the literal claim: for image `(1000, 500)` and
viewport `(200, 50)` at scale 1 the image is letterboxed vertically, and
the visible window obtained by inverse-transforming the viewport corners
spans image rows [-500, 1500] even at the clamped position `(0, 0)` -
it exceeds the image bounds `[0, 1000]` on both sides, so no amount of
clamping keeps the raw corner window inside the image. -/
theorem C4_raw_window_cex :
    (widget_to_img (set_position ⟨(1000, 500), (200, 50), 1, (0, 0)⟩ (0, 0)) (0, 0)).1
        = -500 ∧
    (widget_to_img (set_position ⟨(1000, 500), (200, 50), 1, (0, 0)⟩ (0, 0)) (200, 50)).1
        = 1500 ∧
    (-500 : ℚ) < 0 ∧ (1000 : ℚ) < 1500 := by
  refine ⟨?_, ?_, by norm_num, by norm_num⟩ <;>
    norm_num [widget_to_img, widget_to_img_A, set_position, visible_extent,
      transform_position, view_affine, m_zoom, m_translate, keep_aspect, m_rotation, rotB,
      pre_ndc, post_ndc, vflip, clip1, Affine2.apply, Affine2.inv, Mat2.inv, Mat2.det,
      Mat2.vecMul, Mat2.mulVec, abs_of_nonneg, abs_of_nonpos]

end ComicsViewer

namespace ComicsViewer

/-! ## Geometry primitives for the tile layer (tiles.py)

Tiles are shapely polygons; the embedding stores the exterior-ring vertex
list (`Tile`), with the closing edge from the last vertex back to the
first implicit, as in shapely.  Distances: shapely's `Point.distance` is
the Euclidean norm; since squaring is strictly monotone on nonnegatives,
every comparison the code makes between distances (argmin selection and
the threshold test) is embedded through squared distances, which keeps the
definitions inside `ℚ`.  The claim theorems state the properties with the
real square-root distance and bridge the two forms. -/

abbrev Tile : Type := List Vec

/-- Squared Euclidean distance. -/
def distSq (p q : Vec) : ℚ := (p.1 - q.1) ^ 2 + (p.2 - q.2) ^ 2

/-- Nearest point to `p` on the segment `[a, b]`
(shapely `nearest_points` against a line segment). -/
def segNearest (a b p : Vec) : Vec :=
  if a = b then a
  else
    let t := clip1 (((p.1 - a.1) * (b.1 - a.1) + (p.2 - a.2) * (b.2 - a.2)) / distSq a b) 0 1
    (a.1 + t * (b.1 - a.1), a.2 + t * (b.2 - a.2))

/-- The edges of a closed ring: consecutive vertex pairs plus the closing
edge back to the first vertex. -/
def ringEdges (t : Tile) : List (Vec × Vec) := t.zip (t.rotateLeft 1)

/-- Nearest point to `p` on the exterior ring of one tile; `none` for an
empty polygon.  Ties keep the earlier edge. -/
def nearestOnRing (t : Tile) (p : Vec) : Option Vec :=
  (ringEdges t).foldl
    (fun acc e =>
      let c := segNearest e.1 e.2 p
      match acc with
      | none => some c
      | some b => if distSq c p < distSq b p then some c else some b)
    none

/-- Nearest boundary point over a list of rings: the `STRtree.nearest`
ring followed by `nearest_points` on it (the overall nearest boundary
point; ring ties keep the earlier ring, matching an arbitrary tree
tie-break at equal distance). -/
def nearestBoundaryPoint (tiles : List Tile) (p : Vec) : Option Vec :=
  tiles.foldl
    (fun acc t =>
      match nearestOnRing t p, acc with
      | none, acc => acc
      | some c, none => some c
      | some c, some b => if distSq c p < distSq b p then some c else some b)
    none

/-- Axis-aligned box `[minx, maxx] × [miny, maxy]`. -/
structure Box where
  minx : ℚ
  miny : ℚ
  maxx : ℚ
  maxy : ℚ
  deriving DecidableEq

/-- `box(*MultiPoint([p, q]).bounds)`: the bounding box of two points. -/
def bboxOf (p q : Vec) : Box :=
  ⟨min p.1 q.1, min p.2 q.2, max p.1 q.1, max p.2 q.2⟩

/-- Closed-box membership. -/
def inBoxCl (b : Box) (p : Vec) : Bool :=
  decide (b.minx ≤ p.1 ∧ p.1 ≤ b.maxx ∧ b.miny ≤ p.2 ∧ p.2 ≤ b.maxy)

def boxArea (b : Box) : ℚ := (b.maxx - b.minx) * (b.maxy - b.miny)

/-- The vertex ring shapely's `box()` constructs (counter-clockwise from
the bottom-right corner). -/
def mkBoxTile (b : Box) : Tile :=
  [(b.maxx, b.miny), (b.maxx, b.maxy), (b.minx, b.maxy), (b.minx, b.miny)]

/-- One step of the envelope fold. -/
def bboxStep (b : Box) (w : Vec) : Box :=
  ⟨min b.minx w.1, min b.miny w.2, max b.maxx w.1, max b.maxy w.2⟩

/-- Envelope of a polygon (`none` when the vertex list is empty). -/
def tileBbox (t : Tile) : Option Box :=
  match t with
  | [] => none
  | v :: vs => some (vs.foldl bboxStep ⟨v.1, v.2, v.1, v.2⟩)

/-- Envelope intersection test used by `STRtree.query` (closed overlap;
an empty geometry is never reported). -/
def bboxIntersects (t : Tile) (b : Box) : Bool :=
  match tileBbox t with
  | none => false
  | some a => decide (a.minx ≤ b.maxx ∧ b.minx ≤ a.maxx ∧ a.miny ≤ b.maxy ∧ b.miny ≤ a.maxy)

/-- Twice the signed shoelace area of the ring. -/
def shoelace (t : Tile) : ℚ :=
  ((ringEdges t).map (fun e => e.1.1 * e.2.2 - e.2.1 * e.1.2)).sum

/-- Polygon area (`Polygon.area`), valid for simple rings. -/
def polyArea (t : Tile) : ℚ := |shoelace t| / 2

/-- Point-on-segment test (exact, rational). -/
def onSeg (a b p : Vec) : Bool :=
  decide ((b.1 - a.1) * (p.2 - a.2) - (b.2 - a.2) * (p.1 - a.1) = 0 ∧
    min a.1 b.1 ≤ p.1 ∧ p.1 ≤ max a.1 b.1 ∧ min a.2 b.2 ≤ p.2 ∧ p.2 ≤ max a.2 b.2)

/-- One edge of the crossing-number test: does the horizontal ray from `p`
to the right cross the (half-open) edge `e`? -/
def raycast (p : Vec) (e : Vec × Vec) : Bool :=
  let a := e.1
  let b := e.2
  decide (((a.2 ≤ p.2 ∧ p.2 < b.2) ∨ (b.2 ≤ p.2 ∧ p.2 < a.2)) ∧
    p.1 < a.1 + (p.2 - a.2) * (b.1 - a.1) / (b.2 - a.2))

/-- Closed point-in-polygon for a simple ring: inside the envelope, and
either on the boundary or with an odd crossing number.  (The envelope
pre-check is a standard implementation step and does not change the
predicate: a point outside the envelope is outside the polygon.) -/
def pointInPoly (t : Tile) (p : Vec) : Bool :=
  match tileBbox t with
  | none => false
  | some bb =>
    inBoxCl bb p &&
      ((ringEdges t).any (fun e => onSeg e.1 e.2 p) ||
        ((ringEdges t).countP (raycast p)) % 2 == 1)

/-- Open parameter interval of `t` with `lo < a + t*d < hi`
(`none` = the constraint is infeasible; `(none, none)` = unconstrained). -/
def axisInterval (a d lo hi : ℚ) : Option (Option ℚ × Option ℚ) :=
  if d = 0 then
    if lo < a ∧ a < hi then some (none, none) else none
  else if 0 < d then
    some (some ((lo - a) / d), some ((hi - a) / d))
  else
    some (some ((hi - a) / d), some ((lo - a) / d))

/-- Does the segment `[a, b]` meet the open interior of the box?  Liang-
Barsky style parametric clipping over `ℚ` with exact open bounds. -/
def segMeetsOpenBox (a b : Vec) (bx : Box) : Bool :=
  match axisInterval a.1 (b.1 - a.1) bx.minx bx.maxx,
        axisInterval a.2 (b.2 - a.2) bx.miny bx.maxy with
  | some i1, some i2 =>
    let lo : Option ℚ := match i1.1, i2.1 with
      | none, l => l
      | l, none => l
      | some l1, some l2 => some (max l1 l2)
    let hi : Option ℚ := match i1.2, i2.2 with
      | none, h => h
      | h, none => h
      | some h1, some h2 => some (min h1 h2)
    match lo, hi with
    | none, none => true
    | some l, none => decide (l < 1)
    | none, some h => decide (0 < h)
    | some l, some h => decide (l < h ∧ l < 1 ∧ 0 < h)
  | _, _ => false

def boxCorners (b : Box) : List Vec :=
  [(b.minx, b.miny), (b.maxx, b.miny), (b.maxx, b.maxy), (b.minx, b.maxy)]

/-- `tile.contains(selection_box)` for a simple ring and a box: the box
must be nondegenerate (else its interior is empty and GEOS `contains`
fails), all four corners lie in the closed polygon, and no polygon edge
passes through the open box (else part of the box is outside). -/
def polyContainsBox (t : Tile) (bx : Box) : Bool :=
  decide (0 < boxArea bx) && (boxCorners bx).all (fun c => pointInPoly t c) &&
    !((ringEdges t).any (fun e => segMeetsOpenBox e.1 e.2 bx))

/-- `selection_box.contains(tile)` for a box and a simple ring: a polygon
lies inside a convex region exactly when all vertices do, and the
interiors intersect exactly when both have positive area. -/
def boxContainsPoly (bx : Box) (t : Tile) : Bool :=
  decide (0 < boxArea bx) && decide (0 < polyArea t) && t.all (fun v => inBoxCl bx v)

/-- The image-boundary ring used as a snap target
(`box(*MultiPoint([Point(0,0), np.flip(img_shape)]).bounds).exterior`). -/
def imgBoundary (img_shape : Vec) : Tile :=
  mkBoxTile (bboxOf ((0 : ℚ), (0 : ℚ)) (vflip img_shape))

end ComicsViewer

namespace ComicsViewer

/-! ## The render projection cache (`WidgetPosCache`, tiles.py:73-133)

The cache memoizes widget-space projections of the tiles, the rectangle
anchor and the pending points.  Its transform argument is the bound method
`Tiles.transform`, which reads the view state at call time, so the read
operations below take the transform as a parameter.  The representative-
point memo follows exactly the same pattern as the tile memo and is not
needed by any claim, so it is not carried here. -/

structure WidgetPosCache where
  tiles_orig : List Tile
  tiles_memo : Option (List (List Vec))
  rect_begin_orig : Option Vec
  rect_begin_memo : Option Vec
  points_orig : List Vec
  points_memo : Option (List Vec)
  deriving DecidableEq

/-- `WidgetPosCache.invalidate` (tiles.py:88-92): drop all memos. -/
def WidgetPosCache.invalidate (c : WidgetPosCache) : WidgetPosCache :=
  { c with tiles_memo := none, rect_begin_memo := none, points_memo := none }

/-- The `tiles` setter (tiles.py:101-105). -/
def WidgetPosCache.setTiles (c : WidgetPosCache) (ts : List Tile) : WidgetPosCache :=
  { c with tiles_orig := ts, tiles_memo := none }

/-- The `rect_begin` setter (tiles.py:119-122). -/
def WidgetPosCache.setRect (c : WidgetPosCache) (r : Option Vec) : WidgetPosCache :=
  { c with rect_begin_orig := r, rect_begin_memo := none }

/-- The `points` setter (tiles.py:130-133). -/
def WidgetPosCache.setPoints (c : WidgetPosCache) (ps : List Vec) : WidgetPosCache :=
  { c with points_orig := ps, points_memo := none }

/-- The `tiles` property read (tiles.py:94-99): return the memo if
present, else project every stored tile with the transform `t` and
memoize the result. -/
def WidgetPosCache.readTiles (c : WidgetPosCache) (t : Vec → Vec) :
    List (List Vec) × WidgetPosCache :=
  match c.tiles_memo with
  | some x => (x, c)
  | none =>
    let x := c.tiles_orig.map (fun tile => tile.map t)
    (x, { c with tiles_memo := some x })

/-! ## The annotation state machine (`Tiles`, tiles.py) -/

inductive St where
  | RECTANGLE
  | POINT
  | ERASE
  deriving DecidableEq

/-- The mutable state of `Tiles`.  `state` and `restore` are `Option`
valued because `Tiles.eraser_up` assigns `self._restore` (possibly
`None`) to `self._state`.  `tree` and `line_tree` hold the geometry
snapshots the two `STRtree` indices were built from (the boundary index
stores the same vertex rings).  The GUI-only fields (`_motion_timeout`,
`_tile_timeout`, the drawing area) carry no behaviour and are omitted. -/
structure TilesState where
  tiles : List Tile
  dirty : Bool
  show_tiles : Bool
  cursor : Option Vec
  pen_is_down : Bool
  snap_on : Bool
  state : Option St
  restore : Option St
  rect_begin : Option Vec
  points : List Vec
  tree : List Tile
  line_tree : List Tile
  cache : WidgetPosCache
  deriving DecidableEq

/-- `Tiles.__init__` (tiles.py:136-166). -/
def initTiles : TilesState :=
  ⟨[], false, false, none, false, true, some St.RECTANGLE, none, none, [], [], [],
   ⟨[], none, none, none, [], none⟩⟩

/-- `Tiles.transform` (tiles.py:191-194): image position (x, y) to widget
position (x, y), through `img_to_widget` with the row/col flips. -/
def tiles_transform (v : ViewK) (p : Vec) : Vec :=
  vflip (img_to_widget v (vflip p))

/-- `Tiles.w2i` (tiles.py:183-184): widget position to an image-space
point with (x, y) coordinate order. -/
def w2iT (v : ViewK) (pos : Vec) : Vec :=
  vflip (widget_to_img v pos)

/-- `Tiles.clip` (tiles.py:390-394): clamp an image point to
`[0, w] × [0, h]`. -/
def clipT (v : ViewK) (pos : Vec) : Vec :=
  (clip1 pos.1 0 (vflip v.img_shape).1, clip1 pos.2 0 (vflip v.img_shape).2)

/-- `np.isclose(a.x, b.x, atol=3) and np.isclose(a.y, b.y, atol=3)`
(tiles.py:55-56); numpy's default relative tolerance is `1e-5`, applied
to the second argument. -/
def isclose (a b : Vec) : Bool :=
  decide (|a.1 - b.1| ≤ 3 + |b.1| / 100000 ∧ |a.2 - b.2| ≤ 3 + |b.2| / 100000)

/-- The snap-candidate list of `Tiles.snap` (tiles.py:334-361), in the
order the code appends: pending rectangle anchor, first pending polygon
vertex, nearest point of the image boundary, nearest point on the nearest
existing tile boundary (guarded by `self._tiles`, queried on the boundary
index). -/
def snapCands (st : TilesState) (v : ViewK) (pos : Vec) : List Vec :=
  (match st.rect_begin with
    | some rb => [rb]
    | none => []) ++
  (match st.points with
    | p0 :: _ => [p0]
    | [] => []) ++
  (match nearestOnRing (imgBoundary v.img_shape) pos with
    | some c => [c]
    | none => []) ++
  (if st.tiles.isEmpty then []
   else match nearestBoundaryPoint st.line_tree pos with
    | some c => [c]
    | none => [])

/-- `np.argmin` over the candidate distances, keeping the first minimum;
selection by squared distance coincides with selection by distance. -/
def bestCand (cands : List Vec) (pos : Vec) : Option Vec :=
  cands.foldl
    (fun acc c =>
      match acc with
      | none => some c
      | some b => if distSq c pos < distSq b pos then some c else some b)
    none

/-- `Tiles.snap` (tiles.py:334-361).  The threshold test
`distance < EPSILON / scale` (EPSILON = 20) is embedded as
`distSq < (20 / scale)²`, which is equivalent for the positive scales the
setter admits. -/
def snapT (st : TilesState) (v : ViewK) (pos : Vec) : Vec :=
  if !st.snap_on then pos
  else
    match bestCand (snapCands st v pos) pos with
    | none => pos
    | some c => if distSq c pos < (20 / v.scale) ^ 2 then c else pos

/-- `Tiles.to_be_erased` (tiles.py:308-332): indices of the tiles the
current erase selection would delete.  The loop state is the `inside`
accumulator plus the best `outside` candidate; the envelope query feeds
it in index order, containment is decided on the exact geometry, and the
`outside` candidate is replaced only by a strictly smaller area. -/
def eraseStep (tiles : List Tile) (sel : Box) (acc : List ℕ × Option ℕ)
    (it : ℕ × Tile) : List ℕ × Option ℕ :=
  if boxContainsPoly sel it.2 then (acc.1 ++ [it.1], acc.2)
  else
    if acc.1.isEmpty && polyContainsBox it.2 sel &&
        (match acc.2 with
          | none => true
          | some o => decide (polyArea (tiles.getD o []) > polyArea it.2)) then
      (acc.1, some it.1)
    else acc

def to_be_erased (st : TilesState) : List ℕ :=
  match st.state, st.cursor, st.rect_begin with
  | some St.ERASE, some cur, some rb =>
    let sel := bboxOf rb cur
    let q := (st.tree.enum).filter (fun it => bboxIntersects it.2 sel)
    let r := q.foldl (eraseStep st.tiles sel) ([], none)
    if !r.1.isEmpty then r.1
    else
      match r.2 with
      | some o => [o]
      | none => []
  | _, _, _ => []

/-- `Tiles._tiles_changed` (tiles.py:396-401): set the dirty flag,
rebuild both spatial indices from the current tiles, refresh the cache's
tile list. -/
def tiles_changed (st : TilesState) : TilesState :=
  { st with dirty := true, tree := st.tiles, line_tree := st.tiles,
            cache := st.cache.setTiles st.tiles }

/-- `Tiles._change_state` (tiles.py:403-413). -/
def change_state (st : TilesState) (s : Option St) : TilesState :=
  { st with
    restore :=
      if s = some St.ERASE then
        (if st.state ≠ some St.ERASE then st.state else st.restore)
      else none,
    rect_begin := none,
    points := [],
    cache := (st.cache.setRect none).setPoints [],
    state := s }

/-- The `toggle` helper inside `Tiles.toggle_mode` (tiles.py:416-417). -/
def toggleSt (s : Option St) : St :=
  if s = some St.POINT then St.RECTANGLE else St.POINT

/-- `Tiles.toggle_mode` (tiles.py:415-424). -/
def toggle_mode (st : TilesState) : TilesState :=
  if st.state = some St.ERASE then st
  else if st.pen_is_down then { st with snap_on := !st.snap_on, show_tiles := true }
  else change_state st (some (toggleSt st.state))

/-- `Tiles.pen_down` (tiles.py:426-443). -/
def pen_down (st : TilesState) (v : ViewK) (pos : Vec) : TilesState :=
  let st := { st with pen_is_down := true, cursor := some (w2iT v pos) }
  let st :=
    match st.state with
    | some St.RECTANGLE =>
      let rb := clipT v (w2iT v pos)
      { st with rect_begin := some rb, cache := st.cache.setRect (some rb) }
    | some St.POINT =>
      let p := snapT st v (clipT v (w2iT v pos))
      match st.points with
      | p0 :: _ =>
        if isclose p p0 then
          if st.points.length > 2 then
            let st := tiles_changed { st with tiles := st.tiles ++ [st.points] }
            { st with points := [], cache := st.cache.setPoints [] }
          else st
        else { st with points := st.points ++ [p], cache := st.cache.setPoints (st.points ++ [p]) }
      | [] => { st with points := [p], cache := st.cache.setPoints [p] }
    | _ => st
  { st with show_tiles := true }

/-- `Tiles.pen_up` (tiles.py:445-458); the early return when no anchor is
pending in rectangle mode skips the clearing of cursor and anchor. -/
def pen_up (st : TilesState) (v : ViewK) (pos : Vec) : TilesState :=
  let st := { st with pen_is_down := false }
  let p := snapT st v (clipT v (w2iT v pos))
  match st.state, st.rect_begin with
  | some St.RECTANGLE, none => st
  | some St.RECTANGLE, some rb =>
    let st :=
      if isclose rb p then st
      else tiles_changed { st with tiles := st.tiles ++ [mkBoxTile (bboxOf rb p)] }
    { st with cursor := none, rect_begin := none, cache := st.cache.setRect none,
              show_tiles := true }
  | _, _ =>
    { st with cursor := none, rect_begin := none, cache := st.cache.setRect none,
              show_tiles := true }

/-- `Tiles.eraser_down` (tiles.py:460-465). -/
def eraser_down (st : TilesState) (v : ViewK) (pos : Vec) : TilesState :=
  let st := change_state st (some St.ERASE)
  let c := w2iT v pos
  { st with cursor := some c, rect_begin := some c, cache := st.cache.setRect (some c),
            show_tiles := true }

/-- `Tiles.eraser_up` (tiles.py:467-475). -/
def eraser_up (st : TilesState) (v : ViewK) (pos : Vec) : TilesState :=
  let st := { st with cursor := some (w2iT v pos) }
  let er := to_be_erased st
  let st := { st with
    tiles := ((st.tiles.enum).filter (fun it => !(er.contains it.1))).map (fun it => it.2) }
  let st := if er.isEmpty then st else tiles_changed st
  let st := change_state st st.restore
  { st with show_tiles := true }

/-- `Tiles.pen_motion` (tiles.py:477-479). -/
def pen_motion (st : TilesState) (v : ViewK) (pos : Vec) : TilesState :=
  { st with cursor := some (w2iT v pos), show_tiles := true }

/-- `Tiles.pen_left` (tiles.py:481-485). -/
def pen_left (st : TilesState) : TilesState :=
  { st with rect_begin := none, cache := st.cache.setRect none, cursor := none,
            show_tiles := true }

/-- `Tiles.reset` (tiles.py:373-388).  It does not touch `_rect_begin`,
`_snap`, `_pen_down`, or the cache's tile list. -/
def reset (st : TilesState) : TilesState :=
  { st with cursor := none, tiles := [], tree := [], line_tree := [],
            dirty := false, show_tiles := false,
            state := if st.state = some St.ERASE then some St.RECTANGLE else st.state,
            points := [], cache := st.cache.setPoints [],
            restore := none }

/-- The `tiles` property setter (tiles.py:172-177): reset, install the
new tile list, rebuild, clear the dirty flag. -/
def set_tiles (st : TilesState) (ts : List Tile) : TilesState :=
  let st := reset st
  let st := tiles_changed { st with tiles := ts }
  { st with dirty := false }

/-- `Tiles.transformation_changed` (tiles.py:487-488).  The method exists
but no code in the repository ever calls it. -/
def transformation_changed (st : TilesState) : TilesState :=
  { st with cache := st.cache.invalidate }

/-! ## Event sequences over the public operations (C9, C10) -/

inductive Op where
  | toggle
  | down (v : ViewK) (pos : Vec)
  | up (v : ViewK) (pos : Vec)
  | motion (v : ViewK) (pos : Vec)
  | leave
  | edown (v : ViewK) (pos : Vec)
  | eup (v : ViewK) (pos : Vec)
  | doReset
  | setTiles (ts : List Tile)

def step (st : TilesState) : Op → TilesState
  | .toggle => toggle_mode st
  | .down v p => pen_down st v p
  | .up v p => pen_up st v p
  | .motion v p => pen_motion st v p
  | .leave => pen_left st
  | .edown v p => eraser_down st v p
  | .eup v p => eraser_up st v p
  | .doReset => reset st
  | .setTiles ts => set_tiles st ts

def run (st : TilesState) (ops : List Op) : TilesState :=
  ops.foldl step st

/-- Guard for well-matched eraser gestures: `eraser_up` is only delivered
while the erase state is active (the unmatched release reachable through
the Gtk event layer is exactly what the C9 counterexample exercises). -/
def okOp (st : TilesState) : Op → Prop
  | .eup _ _ => st.state = some St.ERASE
  | _ => True

def okRun : TilesState → List Op → Prop
  | _, [] => True
  | st, op :: ops => okOp st op ∧ okRun (step st op) ops

end ComicsViewer

namespace ComicsViewer

/-- A view whose transform is the identity: equal image and viewport
shapes, scale 1, centred position. -/
def vId : ViewK := ⟨(100, 200), (100, 200), 1, (0, 0)⟩

/-- The same shapes at scale 4. -/
def v4 : ViewK := ⟨(100, 200), (100, 200), 4, (0, 0)⟩

theorem w2i_vId (q : Vec) : widget_to_img vId q = q := by
  obtain ⟨q1, q2⟩ := q
  unfold vId widget_to_img widget_to_img_A transform_position view_affine m_translate m_zoom
    keep_aspect m_rotation rotB pre_ndc post_ndc vflip Mat2.vecMul Affine2.apply Affine2.inv
    Mat2.inv Mat2.det
  norm_num
  constructor <;> ring

theorem i2w_vId (q : Vec) : img_to_widget vId q = q := by
  obtain ⟨q1, q2⟩ := q
  unfold vId img_to_widget img_to_widget_A transform_position view_affine m_translate m_zoom
    keep_aspect m_rotation rotB pre_ndc post_ndc vflip Mat2.vecMul Affine2.apply Affine2.inv
    Mat2.inv Mat2.det
  norm_num
  constructor <;> ring

theorem w2i_v4 (q : Vec) : widget_to_img v4 q = (75 / 2 + q.1 / 4, 75 + q.2 / 4) := by
  unfold v4 widget_to_img widget_to_img_A transform_position view_affine m_translate m_zoom
    keep_aspect m_rotation rotB pre_ndc post_ndc vflip Mat2.vecMul Affine2.apply Affine2.inv
    Mat2.inv Mat2.det
  norm_num
  constructor <;> ring

end ComicsViewer

namespace ComicsViewer

/-- C10 (amended): `reset` is idempotent; one call empties the tile
list, clears the cursor, the pending vertices, the dirty flag and the
erase-restore marker, and exits Erase back to Rectangle while keeping a
non-Erase state unchanged; the rectangle anchor and the snapping flag
are untouched. -/
theorem C10_reset (st : TilesState) :
    reset (reset st) = reset st ∧
    (reset st).tiles = [] ∧ (reset st).cursor = none ∧ (reset st).points = [] ∧
    (reset st).dirty = false ∧ (reset st).restore = none ∧
    (st.state = some St.ERASE → (reset st).state = some St.RECTANGLE) ∧
    (st.state ≠ some St.ERASE → (reset st).state = st.state) ∧
    (reset st).rect_begin = st.rect_begin ∧
    (reset st).snap_on = st.snap_on := by
  unfold reset WidgetPosCache.setPoints
  by_cases h : st.state = some St.ERASE <;> simp [h]

theorem C10_reset_cex :
    (reset (pen_down initTiles vId (10, 20))).rect_begin = some ((20 : ℚ), (10 : ℚ)) ∧
    (reset (pen_down initTiles vId (10, 20))).snap_on = true := by
  simp [pen_down, reset, initTiles, w2iT, clipT, w2i_vId, vflip, clip1,
    WidgetPosCache.setRect, WidgetPosCache.setPoints, min_def, max_def,
    show vId.img_shape = ((100 : ℚ), (200 : ℚ)) from rfl]
  norm_num

end ComicsViewer

namespace ComicsViewer

/-- The interaction-state invariant: the state is one of the three modes,
and while erasing the remembered state is a non-erase mode. -/
def stInv (st : TilesState) : Prop :=
  (st.state = some St.RECTANGLE ∨ st.state = some St.POINT ∨ st.state = some St.ERASE) ∧
  (st.state = some St.ERASE →
    st.restore = some St.RECTANGLE ∨ st.restore = some St.POINT)

theorem pen_down_state (st : TilesState) (v : ViewK) (p : Vec) :
    (pen_down st v p).state = st.state ∧ (pen_down st v p).restore = st.restore := by
  unfold pen_down tiles_changed
  dsimp only
  constructor <;> (split <;> (try split) <;> (try split) <;> (try split) <;> rfl)

theorem pen_up_state (st : TilesState) (v : ViewK) (p : Vec) :
    (pen_up st v p).state = st.state ∧ (pen_up st v p).restore = st.restore := by
  unfold pen_up tiles_changed
  dsimp only
  constructor <;> (split <;> (try split) <;> rfl)

theorem stInv_step (st : TilesState) (op : Op) (h : stInv st) (hok : okOp st op) :
    stInv (step st op) := by
  obtain ⟨h1, h2⟩ := h
  cases op with
  | toggle =>
    simp only [step]
    unfold toggle_mode
    by_cases hE : st.state = some St.ERASE
    · rw [if_pos hE]
      exact ⟨h1, h2⟩
    · rw [if_neg hE]
      by_cases hp : st.pen_is_down = true
      · rw [if_pos hp]
        exact ⟨h1, h2⟩
      · rw [if_neg hp]
        unfold change_state toggleSt
        refine ⟨?_, fun hE2 => ?_⟩
        · dsimp only
          split
          · left
            rfl
          · right
            left
            rfl
        · exfalso
          dsimp only at hE2
          split at hE2 <;> simp at hE2
  | down v p =>
    obtain ⟨e1, e2⟩ := pen_down_state st v p
    simp only [step]
    refine ⟨?_, fun hE2 => ?_⟩
    · rw [e1]
      exact h1
    · rw [e2]
      rw [e1] at hE2
      exact h2 hE2
  | up v p =>
    obtain ⟨e1, e2⟩ := pen_up_state st v p
    simp only [step]
    refine ⟨?_, fun hE2 => ?_⟩
    · rw [e1]
      exact h1
    · rw [e2]
      rw [e1] at hE2
      exact h2 hE2
  | motion v p => exact ⟨h1, h2⟩
  | leave => exact ⟨h1, h2⟩
  | edown v p =>
    simp only [step]
    unfold eraser_down change_state
    dsimp only
    refine ⟨Or.inr (Or.inr rfl), fun _ => ?_⟩
    by_cases hSE : st.state = some St.ERASE
    · simp only [if_pos rfl, hSE, ne_eq, not_true_eq_false, if_false]
      exact h2 hSE
    · simp only [if_pos rfl, ne_eq, hSE, not_false_eq_true, if_true]
      rcases h1 with a | b | c
      · left
        exact a
      · right
        exact b
      · exact absurd c hSE
  | eup v p =>
    have hr := h2 hok
    simp only [step]
    unfold eraser_up change_state tiles_changed
    dsimp only
    split <;> rcases hr with hr | hr <;> simp [stInv, hr]
  | doReset =>
    simp only [step]
    unfold reset
    refine ⟨?_, fun hE2 => ?_⟩
    · split
      · left
        rfl
      · rename_i hne
        rcases h1 with a | b | c
        · left
          exact a
        · right
          left
          exact b
        · exact absurd c hne
    · exfalso
      split at hE2
      · simp at hE2
      · rename_i hne
        exact absurd hE2 hne
  | setTiles ts =>
    simp only [step]
    unfold set_tiles tiles_changed reset
    dsimp only
    refine ⟨?_, fun hE2 => ?_⟩
    · split
      · left
        rfl
      · rename_i hne
        rcases h1 with a | b | c
        · left
          exact a
        · right
          left
          exact b
        · exact absurd c hne
    · exfalso
      split at hE2
      · simp at hE2
      · rename_i hne
        exact absurd hE2 hne

/-- C9 (amended): from the initial state, along any sequence of public
operations in which `eraser_up` is only delivered while the erase state
is active, the interaction state is always one of Rectangle,
Point-polygon, Erase; and an `eraser_down` issued in a non-Erase state
followed by `eraser_up` restores the state active before the
`eraser_down`. -/
theorem C9_interaction_states :
    stInv initTiles ∧
    (∀ st ops, stInv st → okRun st ops → stInv (run st ops)) ∧
    (∀ st (v v2 : ViewK) (p q : Vec), st.state ≠ some St.ERASE →
      (eraser_up (eraser_down st v p) v2 q).state = st.state) := by
  refine ⟨⟨Or.inl rfl, by simp [initTiles]⟩, ?_, ?_⟩
  · intro st ops
    induction ops generalizing st with
    | nil =>
      intro h _
      exact h
    | cons op ops ih =>
      intro h hok
      exact ih _ (stInv_step st op h hok.1) hok.2
  · intro st v v2 p q hne
    unfold eraser_up eraser_down change_state tiles_changed
    dsimp only
    simp only [if_pos rfl, hne, ite_true, ite_false, ne_eq, not_false_eq_true]
    split <;> rfl

theorem C9_interaction_states_witness :
    stInv (run initTiles [Op.edown vId (1, 1), Op.eup vId (2, 2)]) ∧
    (eraser_up (eraser_down initTiles vId (1, 1)) vId (2, 2)).state = some St.RECTANGLE := by
  refine ⟨C9_interaction_states.2.1 initTiles _ C9_interaction_states.1
    ⟨trivial, ?_, trivial⟩, ?_⟩
  · show (step initTiles (Op.edown vId (1, 1))).state = some St.ERASE
    rfl
  · rw [C9_interaction_states.2.2 initTiles vId vId (1, 1) (2, 2) (by simp [initTiles])]
    rfl

/-- C9 counterexample: a bare `eraser_up` (reachable through the event
layer when the matching press fell outside the drawing area) assigns the
`None` restore marker to the interaction state, which is then none of
Rectangle, Point-polygon, Erase. -/
theorem C9_unmatched_eraser_cex :
    (eraser_up initTiles vId (1, 1)).state = none := by
  simp [eraser_up, to_be_erased, change_state, tiles_changed, initTiles]

end ComicsViewer


namespace ComicsViewer

theorem C10_reset_witness :
    reset (reset initTiles) = reset initTiles ∧
    (reset initTiles).state = initTiles.state :=
  ⟨(C10_reset initTiles).1,
   (C10_reset initTiles).2.2.2.2.2.2.2.1 (by simp [initTiles])⟩

/-- The demonstration tile and view change for the projection-cache bug. -/
def demoTile : Tile := [(0, 0), (10, 0), (10, 10), (0, 10)]

def v2x : ViewK := ⟨(100, 200), (100, 200), 2, (0, 0)⟩

theorem i2w_v2x (q : Vec) : img_to_widget v2x q = (2 * q.1 - 50, 2 * q.2 - 100) := by
  obtain ⟨q1, q2⟩ := q
  unfold v2x img_to_widget img_to_widget_A transform_position view_affine m_translate m_zoom
    keep_aspect m_rotation rotB pre_ndc post_ndc vflip Mat2.vecMul Affine2.apply Affine2.inv
    Mat2.inv Mat2.det
  norm_num
  constructor <;> ring

theorem tiles_transform_vId (p : Vec) : tiles_transform vId p = p := by
  simp [tiles_transform, i2w_vId, vflip]

theorem tiles_transform_v2x (p : Vec) :
    tiles_transform v2x p = (2 * p.1 - 100, 2 * p.2 - 50) := by
  simp [tiles_transform, i2w_v2x, vflip]

/-- The state after restoring one saved tile, its cache read once under
the scale-1 view. -/
def demoState0 : TilesState := set_tiles initTiles [demoTile]

def demoRead1 : List (List Vec) × WidgetPosCache :=
  demoState0.cache.readTiles (tiles_transform vId)

def demoState1 : TilesState := { demoState0 with cache := demoRead1.2 }

/-- C2 is a code bug: `Tiles.transformation_changed` exists (and is
embedded as `transformation_changed`) but nothing in the repository calls
it; the `scale` setter only queues a render.  After the scale changes
from 1 to 2, the next cache read returns the widget positions memoized
under scale 1, which differ from the projection under the current
transform; invalidating (what `transformation_changed` would do) yields
the correct projection. -/
theorem C2_stale_projection_bug :
    set_scale vId 2 = v2x ∧
    demoRead1.1 = [demoTile] ∧
    (demoState1.cache.readTiles (tiles_transform v2x)).1 = demoRead1.1 ∧
    [demoTile.map (tiles_transform v2x)] ≠ demoRead1.1 ∧
    ((demoState1.cache.invalidate).readTiles (tiles_transform v2x)).1 =
      [demoTile.map (tiles_transform v2x)] := by
  have h1 : demoRead1.1 = [demoTile] ∧ demoRead1.2.tiles_memo = some [demoTile] := by
    constructor <;>
      simp [demoRead1, demoState0, set_tiles, reset, tiles_changed, initTiles,
        WidgetPosCache.readTiles, WidgetPosCache.setTiles, WidgetPosCache.setPoints,
        tiles_transform_vId, demoTile]
  refine ⟨?_, h1.1, ?_, ?_, ?_⟩
  · simp [set_scale, vId, v2x, clip1, min_def, max_def]
    norm_num
  · simp [demoState1, WidgetPosCache.readTiles, h1.2, h1.1]
  · rw [h1.1]
    simp [demoTile, tiles_transform_v2x]
  · simp [demoState1, WidgetPosCache.invalidate, WidgetPosCache.readTiles]
    have h2 : demoRead1.2.tiles_orig = [demoTile] := by
      simp [demoRead1, demoState0, set_tiles, reset, tiles_changed, initTiles,
        WidgetPosCache.readTiles, WidgetPosCache.setTiles, WidgetPosCache.setPoints]
    rw [h2]
    simp

end ComicsViewer

namespace ComicsViewer

/-- The Euclidean distance the Python code compares (shapely
`Point.distance`), as a real number over the rational embedding. -/
noncomputable def edist (p q : Vec) : ℝ := Real.sqrt ((distSq p q : ℚ) : ℝ)

theorem distSq_nonneg (p q : Vec) : 0 ≤ distSq p q := by
  unfold distSq
  positivity

theorem edist_lt_iff (p q : Vec) (t : ℚ) (ht : 0 < t) :
    edist p q < (t : ℝ) ↔ distSq p q < t ^ 2 := by
  unfold edist
  rw [Real.sqrt_lt' (by exact_mod_cast ht)]
  exact_mod_cast Iff.rfl

theorem edist_le_edist_iff (p q r s : Vec) :
    edist p q ≤ edist r s ↔ distSq p q ≤ distSq r s := by
  unfold edist
  rw [Real.sqrt_le_sqrt_iff (by exact_mod_cast distSq_nonneg r s)]
  exact_mod_cast Iff.rfl

/-- `bestCand` returns a candidate of minimal (squared) distance, or
`none` exactly on the empty list. -/
theorem bestCand_spec (pos : Vec) (cands : List Vec) :
    (cands = [] ∧ bestCand cands pos = none) ∨
    (∃ c, bestCand cands pos = some c ∧ c ∈ cands ∧
      ∀ x ∈ cands, distSq c pos ≤ distSq x pos) := by
  have main : ∀ (l : List Vec) (b : Vec),
      ∃ c, l.foldl (fun acc c =>
          match acc with
          | none => some c
          | some b => if distSq c pos < distSq b pos then some c else some b)
          (some b) = some c ∧
        (c = b ∨ c ∈ l) ∧ distSq c pos ≤ distSq b pos ∧
        ∀ x ∈ l, distSq c pos ≤ distSq x pos := by
    intro l
    induction l with
    | nil => exact fun b => ⟨b, rfl, Or.inl rfl, le_refl _, by simp⟩
    | cons a l ih =>
      intro b
      simp only [List.foldl_cons]
      by_cases hab : distSq a pos < distSq b pos
      · obtain ⟨c, hc1, hc2, hc3, hc4⟩ := ih a
        rw [if_pos hab] at *
        refine ⟨c, hc1, ?_, le_trans hc3 hab.le, ?_⟩
        · rcases hc2 with h | h
          · exact Or.inr (h ▸ List.mem_cons_self a l)
          · exact Or.inr (List.mem_cons_of_mem a h)
        · intro x hx
          rcases List.mem_cons.mp hx with h | h
          · exact h ▸ hc3
          · exact hc4 x h
      · obtain ⟨c, hc1, hc2, hc3, hc4⟩ := ih b
        rw [if_neg hab] at *
        refine ⟨c, hc1, ?_, hc3, ?_⟩
        · rcases hc2 with h | h
          · exact Or.inl h
          · exact Or.inr (List.mem_cons_of_mem a h)
        · intro x hx
          rcases List.mem_cons.mp hx with h | h
          · exact h ▸ le_trans hc3 (not_lt.mp hab)
          · exact hc4 x h
  cases cands with
  | nil => exact Or.inl ⟨rfl, rfl⟩
  | cons a l =>
    right
    obtain ⟨c, hc1, hc2, hc3, hc4⟩ := main l a
    refine ⟨c, hc1, ?_, ?_⟩
    · rcases hc2 with h | h
      · exact h ▸ List.mem_cons_self a l
      · exact List.mem_cons_of_mem a h
    · intro x hx
      rcases List.mem_cons.mp hx with h | h
      · exact h ▸ hc3
      · exact hc4 x h

/-- C6: with snapping enabled, `snap` considers the pending rectangle
anchor, the first pending polygon vertex, the nearest image-boundary
point and the nearest tile-boundary point together; it returns a
candidate of minimum Euclidean distance when that distance is below the
screen-constant threshold `20 / scale` (image units), and the input
unchanged when no candidate is that close. -/
theorem C6_snap_magnet (st : TilesState) (v : ViewK) (pos : Vec)
    (hsnap : st.snap_on = true) (hs : 0 < v.scale) :
    ((∀ c ∈ snapCands st v pos, ¬ edist c pos < (20 : ℝ) / (v.scale : ℝ)) →
      snapT st v pos = pos) ∧
    (∀ c0 ∈ snapCands st v pos, edist c0 pos < (20 : ℝ) / (v.scale : ℝ) →
      ∃ c ∈ snapCands st v pos, snapT st v pos = c ∧
        edist c pos < (20 : ℝ) / (v.scale : ℝ) ∧
        ∀ x ∈ snapCands st v pos, edist c pos ≤ edist x pos) := by
  have hthr : 0 < 20 / v.scale := by positivity
  have hcast : ((20 / v.scale : ℚ) : ℝ) = (20 : ℝ) / (v.scale : ℝ) := by push_cast; ring
  have hsnapT : snapT st v pos = match bestCand (snapCands st v pos) pos with
      | none => pos
      | some c => if distSq c pos < (20 / v.scale) ^ 2 then c else pos := by
    unfold snapT
    rw [hsnap]
    rfl
  have hbr : ∀ y : Vec, (edist y pos < (20 : ℝ) / (v.scale : ℝ) ↔
      distSq y pos < (20 / v.scale) ^ 2) := by
    intro y
    rw [← hcast]
    exact edist_lt_iff y pos (20 / v.scale) hthr
  constructor
  · intro hfar
    rcases bestCand_spec pos (snapCands st v pos) with ⟨hnil, hnone⟩ | ⟨c, hc1, hc2, _⟩
    · rw [hsnapT, hnone]
    · have hne : ¬ distSq c pos < (20 / v.scale) ^ 2 := fun hcon =>
        hfar c hc2 ((hbr c).mpr hcon)
      rw [hsnapT, hc1]
      dsimp only
      rw [if_neg hne]
  · intro c0 hc0 hnear
    rcases bestCand_spec pos (snapCands st v pos) with ⟨hnil, _⟩ | ⟨c, hc1, hc2, hmin⟩
    · rw [hnil] at hc0
      exact absurd hc0 (List.not_mem_nil c0)
    · have hlt : distSq c pos < (20 / v.scale) ^ 2 :=
        lt_of_le_of_lt (hmin c0 hc0) ((hbr c0).mp hnear)
      refine ⟨c, hc2, ?_, (hbr c).mpr hlt, ?_⟩
      · rw [hsnapT, hc1]
        dsimp only
        rw [if_pos hlt]
      · intro x hx
        rw [edist_le_edist_iff]
        exact hmin x hx

end ComicsViewer

namespace ComicsViewer

/-- A state with a pending rectangle anchor at image point (50, 50). -/
def stA : TilesState := { initTiles with rect_begin := some (50, 50) }

theorem C6_snap_magnet_witness :
    stA.snap_on = true ∧ (0 : ℚ) < v2x.scale ∧ (0 : ℚ) < vId.scale ∧
    (∃ c ∈ snapCands stA v2x (58, 50), snapT stA v2x (58, 50) = c ∧
      edist c (58, 50) < (20 : ℝ) / (v2x.scale : ℝ) ∧
      ∀ x ∈ snapCands stA v2x (58, 50), edist c (58, 50) ≤ edist x (58, 50)) ∧
    (∃ c ∈ snapCands stA vId (58, 50), snapT stA vId (58, 50) = c ∧
      edist c (58, 50) < (20 : ℝ) / (vId.scale : ℝ) ∧
      ∀ x ∈ snapCands stA vId (58, 50), edist c (58, 50) ≤ edist x (58, 50)) := by
  have h8 : distSq ((50 : ℚ), (50 : ℚ)) (58, 50) = 64 := by norm_num [distSq]
  have h2 : edist ((50 : ℚ), (50 : ℚ)) (58, 50) < (20 : ℝ) / (v2x.scale : ℝ) := by
    have h := (edist_lt_iff ((50 : ℚ), (50 : ℚ)) (58, 50) 10 (by norm_num)).mpr
      (by rw [h8]; norm_num)
    have : (20 : ℝ) / (v2x.scale : ℝ) = ((10 : ℚ) : ℝ) := by
      norm_num [v2x]
    rw [this]
    exact h
  have h1 : edist ((50 : ℚ), (50 : ℚ)) (58, 50) < (20 : ℝ) / (vId.scale : ℝ) := by
    have h := (edist_lt_iff ((50 : ℚ), (50 : ℚ)) (58, 50) 20 (by norm_num)).mpr
      (by rw [h8]; norm_num)
    have : (20 : ℝ) / (vId.scale : ℝ) = ((20 : ℚ) : ℝ) := by
      norm_num [vId]
    rw [this]
    exact h
  refine ⟨rfl, by norm_num [v2x], by norm_num [vId],
    (C6_snap_magnet stA v2x (58, 50) rfl (by norm_num [v2x])).2 (50, 50) ?_ h2,
    (C6_snap_magnet stA vId (58, 50) rfl (by norm_num [vId])).2 (50, 50) ?_ h1⟩ <;>
  · simp [snapCands, stA, initTiles]

end ComicsViewer

namespace ComicsViewer

theorem bboxStep_mono (vs : List Vec) : ∀ b : Box,
    (vs.foldl bboxStep b).minx ≤ b.minx ∧ b.maxx ≤ (vs.foldl bboxStep b).maxx ∧
    (vs.foldl bboxStep b).miny ≤ b.miny ∧ b.maxy ≤ (vs.foldl bboxStep b).maxy := by
  induction vs with
  | nil => exact fun b => ⟨le_refl _, le_refl _, le_refl _, le_refl _⟩
  | cons w vs ih =>
    intro b
    obtain ⟨h1, h2, h3, h4⟩ := ih (bboxStep b w)
    simp only [List.foldl_cons]
    exact ⟨le_trans h1 (min_le_left _ _), le_trans (le_max_left _ _) h2,
      le_trans h3 (min_le_left _ _), le_trans (le_max_left _ _) h4⟩

theorem tileBbox_head (v : Vec) (vs : List Vec) :
    ∃ bb, tileBbox (v :: vs) = some bb ∧
      bb.minx ≤ v.1 ∧ v.1 ≤ bb.maxx ∧ bb.miny ≤ v.2 ∧ v.2 ≤ bb.maxy := by
  obtain ⟨h1, h2, h3, h4⟩ := bboxStep_mono vs ⟨v.1, v.2, v.1, v.2⟩
  exact ⟨_, rfl, h1, h2, h3, h4⟩

theorem pointInPoly_envelope (t : Tile) (p : Vec) (h : pointInPoly t p = true) :
    ∃ bb, tileBbox t = some bb ∧ inBoxCl bb p = true := by
  unfold pointInPoly at h
  cases htb : tileBbox t with
  | none => rw [htb] at h; exact absurd h (by simp)
  | some bb =>
    rw [htb] at h
    rw [Bool.and_eq_true] at h
    exact ⟨bb, rfl, h.1⟩

theorem polyArea_nil : polyArea ([] : Tile) = 0 := by
  simp [polyArea, shoelace, ringEdges]

/-- A tile contained in the selection box passes the envelope query. -/
theorem boxContainsPoly_pass (sel : Box) (t : Tile)
    (h : boxContainsPoly sel t = true) : bboxIntersects t sel = true := by
  unfold boxContainsPoly at h
  rw [Bool.and_eq_true, Bool.and_eq_true] at h
  obtain ⟨⟨hbx, hpa⟩, hall⟩ := h
  cases t with
  | nil => rw [decide_eq_true_iff, polyArea_nil] at hpa; exact absurd hpa (lt_irrefl 0)
  | cons v vs =>
    obtain ⟨bb, hbb, b1, b2, b3, b4⟩ := tileBbox_head v vs
    have hv : inBoxCl sel v = true := by
      rw [List.all_eq_true] at hall
      exact hall v (List.mem_cons_self v vs)
    rw [inBoxCl, decide_eq_true_iff] at hv
    obtain ⟨s1, s2, s3, s4⟩ := hv
    unfold bboxIntersects
    rw [hbb, decide_eq_true_iff]
    exact ⟨le_trans b1 s2, le_trans s1 b2, le_trans b3 s4, le_trans s3 b4⟩

/-- A tile enclosing the (ordered) selection box passes the envelope
query. -/
theorem polyContainsBox_pass (sel : Box) (t : Tile)
    (hsx : sel.minx ≤ sel.maxx) (hsy : sel.miny ≤ sel.maxy)
    (h : polyContainsBox t sel = true) : bboxIntersects t sel = true := by
  unfold polyContainsBox at h
  rw [Bool.and_eq_true, Bool.and_eq_true] at h
  obtain ⟨⟨hbx, hall⟩, hedge⟩ := h
  have hc : pointInPoly t (sel.minx, sel.miny) = true := by
    rw [List.all_eq_true] at hall
    exact hall (sel.minx, sel.miny) (by simp [boxCorners])
  obtain ⟨bb, hbb, hin⟩ := pointInPoly_envelope t (sel.minx, sel.miny) hc
  rw [inBoxCl, decide_eq_true_iff] at hin
  obtain ⟨i1, i2, i3, i4⟩ := hin
  unfold bboxIntersects
  rw [hbb, decide_eq_true_iff]
  exact ⟨le_trans i1 hsx, i2, le_trans i3 hsy, i4⟩

theorem bboxOf_ordered (p q : Vec) :
    (bboxOf p q).minx ≤ (bboxOf p q).maxx ∧ (bboxOf p q).miny ≤ (bboxOf p q).maxy :=
  ⟨le_trans (min_le_left _ _) (le_max_left _ _),
   le_trans (min_le_left _ _) (le_max_left _ _)⟩

end ComicsViewer

namespace ComicsViewer

/-- First component of the erase fold: the contained indices are appended
in traversal order, whatever the `outside` bookkeeping does. -/
theorem eraseStep_contained (tiles : List Tile) (sel : Box) (acc : List ℕ × Option ℕ)
    (it : ℕ × Tile) (h : boxContainsPoly sel it.2 = true) :
    eraseStep tiles sel acc it = (acc.1 ++ [it.1], acc.2) := by
  unfold eraseStep
  rw [if_pos h]

theorem eraseStep_other (tiles : List Tile) (sel : Box) (acc : List ℕ × Option ℕ)
    (it : ℕ × Tile) (h : boxContainsPoly sel it.2 = false) :
    ∃ out2, eraseStep tiles sel acc it = (acc.1, out2) := by
  unfold eraseStep
  rw [if_neg (by rw [h]; exact Bool.false_ne_true)]
  split
  · exact ⟨some it.1, rfl⟩
  · exact ⟨acc.2, rfl⟩

theorem eraseFold_fst (tiles : List Tile) (sel : Box) (L : List (ℕ × Tile)) :
    ∀ ins out, (L.foldl (eraseStep tiles sel) (ins, out)).1 =
      ins ++ (L.filter (fun it => boxContainsPoly sel it.2)).map (fun it => it.1) := by
  induction L with
  | nil => simp
  | cons a L ih =>
    intro ins out
    simp only [List.foldl_cons]
    by_cases h : boxContainsPoly sel a.2 = true
    · rw [eraseStep_contained tiles sel _ a h, ih]
      simp only [List.filter_cons, h, if_true, List.map_cons]
      simp
    · obtain ⟨out2, hstep⟩ := eraseStep_other tiles sel (ins, out) a
        (by rwa [Bool.not_eq_true] at h)
      rw [hstep, ih]
      rw [Bool.not_eq_true] at h
      simp only [List.filter_cons, h, Bool.false_eq_true, if_false]

/-- The invariant carried by the `outside` accumulator while no contained
tile has been seen: it is `none` when no processed tile encloses the
selection, or the first index of minimal area among the processed
enclosing tiles. -/
def OutSpec (tiles : List Tile) (sel : Box) (processed : List (ℕ × Tile))
    (out : Option ℕ) : Prop :=
  match out with
  | none => ∀ it ∈ processed, polyContainsBox it.2 sel = false
  | some j => ∃ tj, (j, tj) ∈ processed ∧ polyContainsBox tj sel = true ∧
      tiles.getD j [] = tj ∧
      ∀ it ∈ processed, polyContainsBox it.2 sel = true → polyArea tj ≤ polyArea it.2

theorem eraseStep_encl_none (tiles : List Tile) (sel : Box) (it : ℕ × Tile)
    (h1 : boxContainsPoly sel it.2 = false) (h2 : polyContainsBox it.2 sel = true) :
    eraseStep tiles sel ([], none) it = ([], some it.1) := by
  unfold eraseStep
  rw [if_neg (by rw [h1]; exact Bool.false_ne_true), if_pos]
  show (List.isEmpty [] && polyContainsBox it.2 sel && true) = true
  rw [h2]
  rfl

theorem eraseStep_encl_smaller (tiles : List Tile) (sel : Box) (it : ℕ × Tile) (j : ℕ)
    (h1 : boxContainsPoly sel it.2 = false) (h2 : polyContainsBox it.2 sel = true)
    (h3 : polyArea (tiles.getD j []) > polyArea it.2) :
    eraseStep tiles sel ([], some j) it = ([], some it.1) := by
  unfold eraseStep
  rw [if_neg (by rw [h1]; exact Bool.false_ne_true), if_pos]
  show (List.isEmpty [] && polyContainsBox it.2 sel &&
    decide (polyArea (tiles.getD j []) > polyArea it.2)) = true
  rw [h2, decide_eq_true h3]
  rfl

theorem eraseStep_encl_keep (tiles : List Tile) (sel : Box) (it : ℕ × Tile) (j : ℕ)
    (h1 : boxContainsPoly sel it.2 = false)
    (h3 : ¬ polyArea (tiles.getD j []) > polyArea it.2) :
    eraseStep tiles sel ([], some j) it = ([], some j) := by
  unfold eraseStep
  rw [if_neg (by rw [h1]; exact Bool.false_ne_true), if_neg]
  show ¬ (List.isEmpty [] && polyContainsBox it.2 sel &&
    decide (polyArea (tiles.getD j []) > polyArea it.2)) = true
  rw [decide_eq_false h3]
  simp

theorem eraseStep_nonencl (tiles : List Tile) (sel : Box) (it : ℕ × Tile)
    (out : Option ℕ) (h1 : boxContainsPoly sel it.2 = false)
    (h2 : polyContainsBox it.2 sel = false) :
    eraseStep tiles sel ([], out) it = ([], out) := by
  unfold eraseStep
  rw [if_neg (by rw [h1]; exact Bool.false_ne_true), if_neg]
  cases out with
  | none =>
    show ¬ (List.isEmpty [] && polyContainsBox it.2 sel && true) = true
    rw [h2]
    simp
  | some j =>
    show ¬ (List.isEmpty [] && polyContainsBox it.2 sel &&
      decide (polyArea (tiles.getD j []) > polyArea it.2)) = true
    rw [h2]
    simp

theorem eraseFold_snd (tiles : List Tile) (sel : Box) (L : List (ℕ × Tile))
    (hnc : ∀ it ∈ L, boxContainsPoly sel it.2 = false)
    (hgd : ∀ it ∈ L, tiles.getD it.1 [] = it.2) :
    ∀ (P : List (ℕ × Tile)) (out : Option ℕ), OutSpec tiles sel P out →
      OutSpec tiles sel (P ++ L) (L.foldl (eraseStep tiles sel) ([], out)).2 := by
  induction L with
  | nil =>
    intro P out h
    simpa using h
  | cons a L ih =>
    intro P out h
    have hnc_a : boxContainsPoly sel a.2 = false := hnc a (List.mem_cons_self a L)
    have hgd_a : tiles.getD a.1 [] = a.2 := hgd a (List.mem_cons_self a L)
    have hnc' : ∀ it ∈ L, boxContainsPoly sel it.2 = false :=
      fun it hit => hnc it (List.mem_cons_of_mem a hit)
    have hgd' : ∀ it ∈ L, tiles.getD it.1 [] = it.2 :=
      fun it hit => hgd it (List.mem_cons_of_mem a hit)
    have hassoc : P ++ a :: L = (P ++ [a]) ++ L := by simp
    rw [hassoc]
    simp only [List.foldl_cons]
    by_cases hpc : polyContainsBox a.2 sel = true
    · cases out with
      | none =>
        rw [eraseStep_encl_none tiles sel a hnc_a hpc]
        refine ih hnc' hgd' (P ++ [a]) (some a.1) ⟨a.2, by simp, hpc, hgd_a, ?_⟩
        intro it hit _
        rcases List.mem_append.mp hit with hP | ha
        · exact absurd (h it hP) (by simp_all)
        · simp only [List.mem_singleton] at ha
          rw [ha]
      | some j =>
        obtain ⟨tj, hmem, htj, hgdj, hmin⟩ := h
        by_cases harea : polyArea (tiles.getD j []) > polyArea a.2
        · rw [eraseStep_encl_smaller tiles sel a j hnc_a hpc harea]
          refine ih hnc' hgd' (P ++ [a]) (some a.1) ⟨a.2, by simp, hpc, hgd_a, ?_⟩
          intro it hit hit2
          rcases List.mem_append.mp hit with hP | ha
          · have h5 := hmin it hP hit2
            rw [hgdj] at harea
            exact le_trans harea.le h5
          · simp only [List.mem_singleton] at ha
            rw [ha]
        · rw [eraseStep_encl_keep tiles sel a j hnc_a harea]
          refine ih hnc' hgd' (P ++ [a]) (some j) ⟨tj, by simp [hmem], htj, hgdj, ?_⟩
          intro it hit hit2
          rcases List.mem_append.mp hit with hP | ha
          · exact hmin it hP hit2
          · simp only [List.mem_singleton] at ha
            rw [hgdj] at harea
            rw [ha]
            exact not_lt.mp harea
    · rw [Bool.not_eq_true] at hpc
      rw [eraseStep_nonencl tiles sel a out hnc_a hpc]
      refine ih hnc' hgd' (P ++ [a]) out ?_
      cases out with
      | none =>
        intro it hit
        rcases List.mem_append.mp hit with hP | ha
        · exact h it hP
        · simp only [List.mem_singleton] at ha
          rw [ha]
          exact hpc
      | some j =>
        obtain ⟨tj, hmem, htj, hgdj, hmin⟩ := h
        refine ⟨tj, by simp [hmem], htj, hgdj, ?_⟩
        intro it hit hit2
        rcases List.mem_append.mp hit with hP | ha
        · exact hmin it hP hit2
        · simp only [List.mem_singleton] at ha
          rw [ha] at hit2
          rw [hit2] at hpc
          exact absurd hpc (by simp)

end ComicsViewer

namespace ComicsViewer

theorem enum_getD (l : List Tile) (j : ℕ) (t : Tile) (h : (j, t) ∈ l.enum) :
    l.getD j [] = t := by
  rw [List.getD_eq_getD_get?]
  have h2 := List.mk_mem_enum_iff_getElem?.mp h
  rw [List.get?_eq_getElem?, h2]
  rfl

theorem to_be_erased_eq (st : TilesState) (cur rb : Vec)
    (hst : st.state = some St.ERASE) (hc : st.cursor = some cur)
    (hr : st.rect_begin = some rb) :
    to_be_erased st =
      (if !((st.tree.enum.filter
            (fun it => bboxIntersects it.2 (bboxOf rb cur))).foldl
              (eraseStep st.tiles (bboxOf rb cur)) ([], none)).1.isEmpty then
        ((st.tree.enum.filter
            (fun it => bboxIntersects it.2 (bboxOf rb cur))).foldl
              (eraseStep st.tiles (bboxOf rb cur)) ([], none)).1
      else
        match ((st.tree.enum.filter
            (fun it => bboxIntersects it.2 (bboxOf rb cur))).foldl
              (eraseStep st.tiles (bboxOf rb cur)) ([], none)).2 with
        | some o => [o]
        | none => []) := by
  unfold to_be_erased
  rw [hst, hc, hr]

/-- C7: the erase-candidate set.  With the indices in sync
(`tree = tiles`, as after every rebuild): if any tile is fully contained
in the selection box, the result is exactly the list of contained tiles
(in index order); otherwise, if some tile fully contains the selection
box, the result is a single enclosing tile of minimal area; otherwise the
result is empty. -/
theorem C7_erase_candidates (st : TilesState) (cur rb : Vec)
    (hst : st.state = some St.ERASE) (hc : st.cursor = some cur)
    (hr : st.rect_begin = some rb) (hsync : st.tree = st.tiles) :
    ((st.tiles.enum.filter
        (fun it => boxContainsPoly (bboxOf rb cur) it.2)).map (fun it => it.1) ≠ [] →
      to_be_erased st =
        (st.tiles.enum.filter
          (fun it => boxContainsPoly (bboxOf rb cur) it.2)).map (fun it => it.1)) ∧
    ((st.tiles.enum.filter
        (fun it => boxContainsPoly (bboxOf rb cur) it.2)).map (fun it => it.1) = [] →
      (∀ it ∈ st.tiles.enum, polyContainsBox it.2 (bboxOf rb cur) = false) →
      to_be_erased st = []) ∧
    ((st.tiles.enum.filter
        (fun it => boxContainsPoly (bboxOf rb cur) it.2)).map (fun it => it.1) = [] →
      ∀ it0 ∈ st.tiles.enum, polyContainsBox it0.2 (bboxOf rb cur) = true →
      ∃ j tj, (j, tj) ∈ st.tiles.enum ∧ to_be_erased st = [j] ∧
        polyContainsBox tj (bboxOf rb cur) = true ∧
        ∀ it ∈ st.tiles.enum, polyContainsBox it.2 (bboxOf rb cur) = true →
          polyArea tj ≤ polyArea it.2) := by
  obtain ⟨hsx, hsy⟩ := bboxOf_ordered rb cur
  have hred := to_be_erased_eq st cur rb hst hc hr
  rw [hsync] at hred
  have hq : (st.tiles.enum.filter
      (fun it => bboxIntersects it.2 (bboxOf rb cur))).filter
        (fun it => boxContainsPoly (bboxOf rb cur) it.2) =
      st.tiles.enum.filter (fun it => boxContainsPoly (bboxOf rb cur) it.2) := by
    rw [List.filter_filter]
    apply List.filter_congr
    intro it _
    by_cases h : boxContainsPoly (bboxOf rb cur) it.2 = true
    · rw [h, boxContainsPoly_pass (bboxOf rb cur) it.2 h]
      rfl
    · rw [Bool.not_eq_true] at h
      rw [h]
      rfl
  have hfst := eraseFold_fst st.tiles (bboxOf rb cur)
    (st.tiles.enum.filter (fun it => bboxIntersects it.2 (bboxOf rb cur))) [] none
  rw [hq] at hfst
  simp only [List.nil_append] at hfst
  refine ⟨?_, ?_, ?_⟩
  · intro hC
    rw [hred, hfst, if_pos]
    have : (List.map (fun it => it.1) (List.filter
        (fun it => boxContainsPoly (bboxOf rb cur) it.2) st.tiles.enum)).isEmpty = false := by
      rwa [List.isEmpty_eq_false]
    rw [this]
    rfl
  · intro hC hnone
    have hnc : ∀ it ∈ st.tiles.enum.filter
        (fun it => bboxIntersects it.2 (bboxOf rb cur)),
        boxContainsPoly (bboxOf rb cur) it.2 = false := by
      intro it hit
      have hmem := (List.mem_filter.mp hit).1
      by_contra hcon
      rw [Bool.not_eq_false] at hcon
      have : it ∈ st.tiles.enum.filter
          (fun it => boxContainsPoly (bboxOf rb cur) it.2) :=
        List.mem_filter.mpr ⟨hmem, hcon⟩
      rw [List.map_eq_nil] at hC
      rw [hC] at this
      exact absurd this (List.not_mem_nil it)
    have hgd : ∀ it ∈ st.tiles.enum.filter
        (fun it => bboxIntersects it.2 (bboxOf rb cur)),
        st.tiles.getD it.1 [] = it.2 := by
      intro it hit
      obtain ⟨i, t⟩ := it
      exact enum_getD st.tiles i t (List.mem_filter.mp hit).1
    have hspec := eraseFold_snd st.tiles (bboxOf rb cur) _ hnc hgd [] none
      (fun it hit => absurd hit (List.not_mem_nil it))
    simp only [List.nil_append] at hspec
    have hempty1 : ((st.tiles.enum.filter
        (fun it => bboxIntersects it.2 (bboxOf rb cur))).foldl
          (eraseStep st.tiles (bboxOf rb cur)) ([], none)).1 = [] := by
      rw [hfst, hC]
    rw [hred, if_neg (by rw [hempty1]; simp)]
    cases hout : ((st.tiles.enum.filter
        (fun it => bboxIntersects it.2 (bboxOf rb cur))).foldl
          (eraseStep st.tiles (bboxOf rb cur)) ([], none)).2 with
    | none => rfl
    | some j =>
      rw [hout] at hspec
      obtain ⟨tj, hmem, htj, _, _⟩ := hspec
      have hmem0 := (List.mem_filter.mp hmem).1
      exact absurd (hnone (j, tj) hmem0) (by simp [htj])
  · intro hC it0 hit0 hencl0
    have hnc : ∀ it ∈ st.tiles.enum.filter
        (fun it => bboxIntersects it.2 (bboxOf rb cur)),
        boxContainsPoly (bboxOf rb cur) it.2 = false := by
      intro it hit
      have hmem := (List.mem_filter.mp hit).1
      by_contra hcon
      rw [Bool.not_eq_false] at hcon
      have : it ∈ st.tiles.enum.filter
          (fun it => boxContainsPoly (bboxOf rb cur) it.2) :=
        List.mem_filter.mpr ⟨hmem, hcon⟩
      rw [List.map_eq_nil] at hC
      rw [hC] at this
      exact absurd this (List.not_mem_nil it)
    have hgd : ∀ it ∈ st.tiles.enum.filter
        (fun it => bboxIntersects it.2 (bboxOf rb cur)),
        st.tiles.getD it.1 [] = it.2 := by
      intro it hit
      obtain ⟨i, t⟩ := it
      exact enum_getD st.tiles i t (List.mem_filter.mp hit).1
    have hspec := eraseFold_snd st.tiles (bboxOf rb cur) _ hnc hgd [] none
      (fun it hit => absurd hit (List.not_mem_nil it))
    simp only [List.nil_append] at hspec
    have hempty1 : ((st.tiles.enum.filter
        (fun it => bboxIntersects it.2 (bboxOf rb cur))).foldl
          (eraseStep st.tiles (bboxOf rb cur)) ([], none)).1 = [] := by
      rw [hfst, hC]
    have hit0q : it0 ∈ st.tiles.enum.filter
        (fun it => bboxIntersects it.2 (bboxOf rb cur)) :=
      List.mem_filter.mpr ⟨hit0, polyContainsBox_pass _ _ hsx hsy hencl0⟩
    cases hout : ((st.tiles.enum.filter
        (fun it => bboxIntersects it.2 (bboxOf rb cur))).foldl
          (eraseStep st.tiles (bboxOf rb cur)) ([], none)).2 with
    | none =>
      rw [hout] at hspec
      exact absurd (hspec it0 hit0q) (by simp [hencl0])
    | some j =>
      rw [hout] at hspec
      obtain ⟨tj, hmem, htj, hgdj, hmin⟩ := hspec
      refine ⟨j, tj, (List.mem_filter.mp hmem).1, ?_, htj, ?_⟩
      · rw [hred, if_neg (by rw [hempty1]; simp), hout]
      · intro it hit hit2
        exact hmin it
          (List.mem_filter.mpr ⟨hit, polyContainsBox_pass _ _ hsx hsy hit2⟩) hit2

end ComicsViewer

namespace ComicsViewer

def bigT : Tile := mkBoxTile ⟨0, 0, 100, 100⟩

def smallT : Tile := mkBoxTile ⟨40, 40, 60, 60⟩

/-- Erase state over a large tile with a small tile nested inside it and
a selection box `[30,70]²` that fully contains only the small tile. -/
def stC7 : TilesState :=
  { set_tiles initTiles [bigT, smallT] with
    state := some St.ERASE, cursor := some (70, 70), rect_begin := some (30, 30) }

theorem C7_erase_candidates_witness : to_be_erased stC7 = [1] := by
  have hC : (stC7.tiles.enum.filter
      (fun it => boxContainsPoly (bboxOf (30, 30) (70, 70)) it.2)).map
        (fun it => it.1) = [1] := by
    have htiles : stC7.tiles = [bigT, smallT] := rfl
    rw [htiles]
    norm_num [List.enum, List.enumFrom, List.filter, boxContainsPoly, boxArea, polyArea,
      shoelace, ringEdges, List.rotateLeft, inBoxCl, bboxOf, mkBoxTile, bigT, smallT,
      min_def, max_def]
  have h := (C7_erase_candidates stC7 (70, 70) (30, 30) rfl rfl rfl rfl).1
  rw [hC] at h
  exact h (by simp)

end ComicsViewer

namespace ComicsViewer

/-- Erase state with the selection box `[45,55]²` strictly inside both
nested tiles. -/
def stC7b : TilesState :=
  { set_tiles initTiles [bigT, smallT] with
    state := some St.ERASE, cursor := some (55, 55), rect_begin := some (45, 45) }

set_option maxHeartbeats 2000000 in
/-- The claim's second scenario: a selection inside both nested tiles is
caught by the nearest-enclosing rule and erases only the smaller tile. -/
theorem erase_nested_inner_example : to_be_erased stC7b = [1] := by
  rw [to_be_erased_eq stC7b (55, 55) (45, 45) rfl rfl rfl]
  norm_num [stC7b, set_tiles, reset, tiles_changed, initTiles, List.enum, List.enumFrom,
    List.filter, List.foldl, eraseStep, boxContainsPoly, polyContainsBox, boxArea, polyArea,
    shoelace, ringEdges, List.rotateLeft, inBoxCl, bboxOf, mkBoxTile, bigT, smallT,
    pointInPoly, tileBbox, bboxStep, onSeg, raycast, segMeetsOpenBox, axisInterval,
    boxCorners, bboxIntersects, List.countP, List.countP.go, min_def, max_def,
    WidgetPosCache.setTiles, WidgetPosCache.setPoints]

end ComicsViewer

namespace ComicsViewer

/-- `snap` does not read the pen flag or the cursor, so the update
`pen_down` makes before snapping does not change the snap result. -/
theorem snapT_pen_cursor (st : TilesState) (v : ViewK) (c q : Vec) :
    snapT { st with pen_is_down := true, cursor := some c } v q = snapT st v q := rfl

/-- C8 (amended): in Point-polygon state, `pen_down` first snaps and
clips the position; if a vertex list is pending and the snapped point is
within the fixed image-space `isclose` tolerance of the first pending
vertex, then with at least 3 pending vertices it commits the pending
polygon (dirty set, indices rebuilt, pending cleared), while with 2 or
fewer it does nothing; if the snapped point is not close to the first
vertex (or nothing is pending) the point is appended. -/
theorem C8_polygon_closing (st : TilesState) (v : ViewK) (pos : Vec)
    (hst : st.state = some St.POINT) :
    (∀ p0 ps, st.points = p0 :: ps →
      isclose (snapT st v (clipT v (w2iT v pos))) p0 = true →
      2 < st.points.length →
      (pen_down st v pos).tiles = st.tiles ++ [st.points] ∧
      (pen_down st v pos).points = [] ∧
      (pen_down st v pos).dirty = true ∧
      (pen_down st v pos).tree = st.tiles ++ [st.points] ∧
      (pen_down st v pos).line_tree = st.tiles ++ [st.points]) ∧
    (∀ p0 ps, st.points = p0 :: ps →
      isclose (snapT st v (clipT v (w2iT v pos))) p0 = true →
      st.points.length ≤ 2 →
      (pen_down st v pos).tiles = st.tiles ∧
      (pen_down st v pos).points = st.points) ∧
    ((st.points = [] ∨ (∀ p0 ps, st.points = p0 :: ps →
        isclose (snapT st v (clipT v (w2iT v pos))) p0 = false)) →
      (pen_down st v pos).points =
        st.points ++ [snapT st v (clipT v (w2iT v pos))] ∧
      (pen_down st v pos).tiles = st.tiles) := by
  unfold pen_down tiles_changed
  dsimp only
  rw [snapT_pen_cursor st v (w2iT v pos) (clipT v (w2iT v pos)), hst]
  refine ⟨?_, ?_, ?_⟩
  · intro p0 ps hp hcl hlen
    rw [hp] at hlen
    rw [hp]
    dsimp only
    rw [hcl, if_pos rfl, if_pos hlen]
    exact ⟨rfl, rfl, rfl, rfl, rfl⟩
  · intro p0 ps hp hcl hlen
    rw [hp] at hlen
    rw [hp]
    dsimp only
    rw [hcl, if_pos rfl, if_neg (not_lt.mpr hlen)]
    exact ⟨rfl, rfl⟩
  · intro hfar
    rcases hfar with hnil | hfar
    · rw [hnil]
      exact ⟨rfl, rfl⟩
    · cases hp : st.points with
      | nil => exact ⟨rfl, rfl⟩
      | cons p0 ps =>
        dsimp only
        rw [hfar p0 ps hp]
        exact ⟨rfl, rfl⟩

end ComicsViewer

namespace ComicsViewer

/-- Point-polygon state with two pending vertices, snapping toggled off. -/
def stP2 : TilesState :=
  { initTiles with
      state := some St.POINT
      snap_on := false
      points := [(100, 100), (150, 100)] }

/-- Point-polygon state with three pending vertices, snapping off. -/
def stP3 : TilesState :=
  { initTiles with
      state := some St.POINT
      snap_on := false
      points := [(100, 100), (150, 100), (150, 150)] }

/-- C8 counterexample: with two vertices pending, a click back on the
first vertex (well within any closing tolerance - snapped point equals
the first vertex exactly) neither commits nor appends: the pending list
is left unchanged, while the claim says the point is appended in every
non-committing case.  The tolerance is also not zoom-scaled: `isclose`
(tiles.py:55-56) uses a fixed image-space `atol=3`. -/
theorem C8_two_point_swallow_cex :
    (pen_down stP2 vId (100, 100)).points = [((100 : ℚ), (100 : ℚ)), (150, 100)] ∧
    (pen_down stP2 vId (100, 100)).tiles = [] ∧
    isclose (snapT stP2 vId (clipT vId (w2iT vId (100, 100)))) ((100 : ℚ), (100 : ℚ)) = true := by
  refine ⟨?_, ?_, ?_⟩ <;>
    norm_num [pen_down, tiles_changed, stP2, initTiles, snapT, clipT, w2iT, w2i_vId, vflip,
      clip1, isclose, min_def, max_def,
      show vId.img_shape = ((100 : ℚ), (200 : ℚ)) from rfl]

theorem C8_polygon_closing_witness :
    stP3.state = some St.POINT ∧
    (pen_down stP3 vId (100, 100)).tiles =
      [[((100 : ℚ), (100 : ℚ)), (150, 100), (150, 150)]] ∧
    (pen_down stP3 vId (100, 100)).points = [] ∧
    (pen_down stP3 vId (100, 100)).dirty = true := by
  have hcl : isclose (snapT stP3 vId (clipT vId (w2iT vId (100, 100))))
      ((100 : ℚ), (100 : ℚ)) = true := by
    norm_num [stP3, initTiles, snapT, clipT, w2iT, w2i_vId, vflip, clip1, isclose,
      min_def, max_def, show vId.img_shape = ((100 : ℚ), (200 : ℚ)) from rfl]
  have h := (C8_polygon_closing stP3 vId (100, 100) rfl).1 (100, 100)
    [(150, 100), (150, 150)] rfl hcl (by norm_num [stP3, initTiles])
  refine ⟨rfl, ?_, h.2.1, h.2.2.1⟩
  rw [h.1]
  rfl

end ComicsViewer
